import Mathlib

/-!
The resolution gate and the rendition loop of hls-convertor (`main.go`)

A shallow embedding of `main.go`.  Go strings are byte sequences; the Go
standard-library functions the program calls (`strings.Split`,
`strconv.Atoi`, `strings.TrimSpace`, `filepath.Join`) are embedded from
their Go definitions, on a Unix platform.  The external world (file system,
`ffprobe`, `ffmpeg`, the order in which `range` visits a map) is an
explicit parameter of `main`.
-/

namespace HlsConvertor

/-- Equality of results is decidable, so that runs on concrete inputs evaluate. -/
instance instDecidableEqExcept {ε α : Type} [DecidableEq ε] [DecidableEq α] :
    DecidableEq (Except ε α)
  | .ok a, .ok b => if h : a = b then isTrue (by rw [h]) else isFalse (by intro h2; cases h2; exact h rfl)
  | .error a, .error b =>
    if h : a = b then isTrue (by rw [h]) else isFalse (by intro h2; cases h2; exact h rfl)
  | .ok _, .error _ => isFalse (by intro h; cases h)
  | .error _, .ok _ => isFalse (by intro h; cases h)

/-! ## Strings -/

/-- A byte, Go `uint8`. -/
abbrev Byte := Fin 256

/-- A Go string: an immutable sequence of bytes. -/
abbrev GoString := List Byte

/-- UTF-8 encoding of one code point, the way Go stores a string literal. -/
def utf8Bytes (c : Nat) : List Nat :=
  if c < 0x80 then [c]
  else if c < 0x800 then [0xC0 + c / 64, 0x80 + c % 64]
  else if c < 0x10000 then [0xE0 + c / 4096, 0x80 + c / 64 % 64, 0x80 + c % 64]
  else [0xF0 + c / 262144, 0x80 + c / 4096 % 64, 0x80 + c / 64 % 64, 0x80 + c % 64]

/-- The bytes of a string literal of the source. -/
def lit (s : String) : GoString :=
  s.toList.flatMap (fun c => (utf8Bytes c.toNat).map (fun b => (Fin.ofNat b : Byte)))

/-- Loop of `strings.Split(s, sep)` for a one-byte separator: `cur` holds, in
reverse, the bytes read since the last separator. -/
def splitLoop (sep : Byte) : GoString → GoString → List GoString
  | [], cur => [cur.reverse]
  | c :: rest, cur =>
    if c = sep then cur.reverse :: splitLoop sep rest []
    else splitLoop sep rest (c :: cur)

/-- Go `strings.Split(s, sep)` with a separator of one byte, as at its call
site `strings.Split(resolution, "x")`: the substrings between separators, one
more than the number of separators (so never an empty slice). -/
def Split (s : GoString) (sep : Byte) : List GoString :=
  splitLoop sep s []

/-- Go `strings.Join(elems, sep)`. -/
def stringsJoin (elems : List GoString) (sep : GoString) : GoString :=
  match elems with
  | [] => []
  | [e] => e
  | e :: rest => e ++ sep ++ stringsJoin rest sep

/-! ## strconv -/

/-- The two errors of `strconv`: `ErrSyntax` and `ErrRange`. -/
inductive NumError where
  | ErrSyntax
  | ErrRange
  deriving DecidableEq, Repr

/-- Subtraction of two bytes in `uint8` arithmetic, as a number. -/
def byteSub (a b : Byte) : Nat := (a.val + 256 - b.val) % 256

/-- Wrap, in two-complement arithmetic, of an integer into the range of a Go `int` of
`intSize` bits. -/
def wrapInt (intSize : Nat) (x : Int) : Int :=
  (x + 2 ^ (intSize - 1)) % 2 ^ intSize - 2 ^ (intSize - 1)

/-- The digit loop of the fast path of `strconv.Atoi`:
the byte minus the byte of the digit zero is the digit, a syntax error when
it is above 9, and `n = n*10 + int(ch)` otherwise. -/
def atoiLoop (intSize : Nat) : GoString → Int → Except NumError Int
  | [], n => .ok n
  | ch :: rest, n =>
    let d := byteSub ch 48
    if d > 9 then .error .ErrSyntax
    else atoiLoop intSize rest (wrapInt intSize (n * 10 + (d : Int)))

/-- The function `lower(c)` of `strconv`, which is `c | 0x20`. -/
def lower (c : Byte) : Nat := c.val ||| 32

/-- The loop of `strconv.ParseUint(s, 10, 0)`: returns the value and the
error, if any (on a range error the value is `maxVal`). -/
def parseUintLoop (intSize : Nat) : GoString → Nat → Nat × Option NumError
  | [], n => (n, none)
  | c :: rest, n =>
    let d? : Option Nat :=
      if 48 ≤ c.val ∧ c.val ≤ 57 then some (c.val - 48)
      else if 97 ≤ lower c ∧ lower c ≤ 122 then some (lower c - 97 + 10)
      else none
    match d? with
    | none => (0, some .ErrSyntax)
    | some d =>
      if d ≥ 10 then (0, some .ErrSyntax)
      else
        let maxVal := 2 ^ intSize - 1
        let cutoff := (2 ^ 64 - 1) / 10 + 1
        if n ≥ cutoff then (maxVal, some .ErrRange)
        else
          let n := n * 10
          let n1 := (n + d) % 2 ^ 64
          if n1 < n ∨ n1 > maxVal then (maxVal, some .ErrRange)
          else parseUintLoop intSize rest n1

/-- Go `strconv.ParseUint(s, 10, 0)`. -/
def ParseUint (intSize : Nat) (s : GoString) : Nat × Option NumError :=
  if s = [] then (0, some .ErrSyntax)
  else parseUintLoop intSize s 0

/-- Go `strconv.ParseInt(s, 10, 0)`. -/
def ParseInt (intSize : Nat) (s : GoString) : Except NumError Int :=
  if s = [] then .error .ErrSyntax
  else
    let neg := s.head? = some 45
    let s1 := if s.head? = some 43 then s.tail else if s.head? = some 45 then s.tail else s
    match ParseUint intSize s1 with
    | (_, some .ErrSyntax) => .error .ErrSyntax
    | (un, _) =>
      let cutoff := 2 ^ (intSize - 1)
      if ¬ neg ∧ un ≥ cutoff then .error .ErrRange
      else if neg ∧ un > cutoff then .error .ErrRange
      else .ok (if neg then - (un : Int) else (un : Int))

/-- Go `strconv.Atoi(s)` on a platform whose `int` has `intSize` bits (32 or
64): the fast path for short strings, `ParseInt(s, 10, 0)` otherwise. -/
def Atoi (intSize : Nat) (s : GoString) : Except NumError Int :=
  let sLen := s.length
  if (intSize = 32 ∧ 0 < sLen ∧ sLen < 10) ∨ (intSize = 64 ∧ 0 < sLen ∧ sLen < 19) then
    let signed := s.head? = some 45 ∨ s.head? = some 43
    let s1 := if signed then s.tail else s
    if signed ∧ s1.length < 1 then .error .ErrSyntax
    else
      match atoiLoop intSize s1 0 with
      | .error e => .error e
      | .ok n => .ok (if s.head? = some 45 then wrapInt intSize (-n) else n)
  else ParseInt intSize s

/-- The byte of the last decimal digit of `n`: the byte of the digit zero
plus `n % 10`. -/
def digitByte (n : Nat) : Byte := ⟨48 + n % 10, by omega⟩

/-- Decimal digits of a natural number, most significant first, in front of
`acc`; `fuel` bounds the number of digits. -/
def decimalAux : Nat → Nat → GoString → GoString
  | 0, _, acc => acc
  | fuel + 1, n, acc =>
    if n < 10 then digitByte n :: acc
    else decimalAux fuel (n / 10) (digitByte n :: acc)

/-- Decimal rendering of a natural number. -/
def decimal (n : Nat) : GoString := decimalAux (n + 1) n []

/-- Go `strconv.Itoa(i)`: the decimal rendering of an integer, with a
leading `-` when it is negative. -/
def Itoa (i : Int) : GoString :=
  if i < 0 then 45 :: decimal i.natAbs else decimal i.natAbs

/-! ## isResolutionValid -/

/-- A Go run-time panic: `index out of range [index] with length len`. -/
inductive Panic where
  | indexOutOfRange (index len : Nat)
  deriving DecidableEq, Repr

/-- Indexing a slice, `xs[i]`, which panics when `i` is out of range. -/
def index {α : Type} (xs : List α) (i : Nat) : Except Panic α :=
  match xs.get? i with
  | some x => .ok x
  | none => .error (.indexOutOfRange i xs.length)

/-- Source `isResolutionValid` (main.go, lines 88-106).  The result is the
returned boolean, or the panic raised by an index expression. -/
def isResolutionValid (intSize : Nat) (resolution : GoString) : Except Panic Bool :=
  let resolutionSplit := Split resolution 120
  match index resolutionSplit 0 with
  | .error p => .error p
  | .ok widthStr =>
    match index resolutionSplit 1 with
    | .error p => .error p
    | .ok heightStr =>
      match Atoi intSize widthStr, Atoi intSize heightStr with
      | .ok width, .ok height => .ok (decide (width ≥ 1920 ∧ height ≥ 1080))
      | _, _ => .ok false

/-! ## strings.TrimSpace -/

/-- Go `utf8.RuneError`, the replacement character U+FFFD. -/
def RuneError : Nat := 0xFFFD

/-- Go `utf8.RuneSelf`: bytes below it are single-byte runes. -/
def RuneSelf : Nat := 0x80

/-- The table `first` of package `utf8`: information about the first byte of
a UTF-8 sequence (`as` = 0xF0, `xx` = 0xF1, `s1` .. `s7`). -/
def first (b : Nat) : Nat :=
  if b < 0x80 then 0xF0
  else if b < 0xC2 then 0xF1
  else if b < 0xE0 then 0x02
  else if b = 0xE0 then 0x13
  else if b < 0xED then 0x03
  else if b = 0xED then 0x23
  else if b < 0xF0 then 0x03
  else if b = 0xF0 then 0x34
  else if b < 0xF4 then 0x04
  else if b = 0xF4 then 0x44
  else 0xF1

/-- The table `acceptRanges` of package `utf8`: the range `(lo, hi)` of valid
second bytes. -/
def acceptRanges (i : Nat) : Nat × Nat :=
  match i with
  | 0 => (0x80, 0xBF)
  | 1 => (0xA0, 0xBF)
  | 2 => (0x80, 0x9F)
  | 3 => (0x90, 0xBF)
  | 4 => (0x80, 0x8F)
  | _ => (0, 0)

/-- The byte `s[i]` as a number, for an index known to be in range. -/
def byteAt (s : GoString) (i : Nat) : Nat := (s.getD i 0).val

/-- Go `utf8.DecodeRuneInString(s)`: the first rune of `s` and its width in
bytes; `(RuneError, 0)` on the empty string and `(RuneError, 1)` on an
invalid encoding. -/
def DecodeRuneInString (s : GoString) : Nat × Nat :=
  let n := s.length
  if n < 1 then (RuneError, 0)
  else
    let s0 := byteAt s 0
    let x := first s0
    if x ≥ 0xF0 then
      (if x % 2 = 1 then RuneError else s0, 1)
    else
      let sz := x &&& 7
      let accept := acceptRanges (x >>> 4)
      if n < sz then (RuneError, 1)
      else
        let s1 := byteAt s 1
        if s1 < accept.1 ∨ accept.2 < s1 then (RuneError, 1)
        else if sz ≤ 2 then (((s0 &&& 0x1F) <<< 6) ||| (s1 &&& 0x3F), 2)
        else
          let s2 := byteAt s 2
          if s2 < 0x80 ∨ 0xBF < s2 then (RuneError, 1)
          else if sz ≤ 3 then
            (((s0 &&& 0x0F) <<< 12) ||| ((s1 &&& 0x3F) <<< 6) ||| (s2 &&& 0x3F), 3)
          else
            let s3 := byteAt s 3
            if s3 < 0x80 ∨ 0xBF < s3 then (RuneError, 1)
            else
              (((s0 &&& 0x07) <<< 18) ||| ((s1 &&& 0x3F) <<< 12) ||| ((s2 &&& 0x3F) <<< 6)
                ||| (s3 &&& 0x3F), 4)

/-- Go `utf8.RuneStart(b)`: `b` is not a continuation byte. -/
def RuneStart (b : Nat) : Bool := decide (b &&& 0xC0 ≠ 0x80)

/-- The backward scan of `utf8.DecodeLastRuneInString`: from `start`, down to
`lim`, to the nearest byte that starts a rune; `none` stands for an index
below zero. -/
def lastRuneStart (s : GoString) (lim : Nat) : Nat → Option Nat → Option Nat
  | _, none => none
  | 0, some start => some start
  | fuel + 1, some start =>
    if start < lim then some start
    else if RuneStart (byteAt s start) then some start
    else lastRuneStart s lim fuel (if start = 0 then none else some (start - 1))

/-- Go `utf8.DecodeLastRuneInString(s)`: the last rune of `s` and its width. -/
def DecodeLastRuneInString (s : GoString) : Nat × Nat :=
  let stop := s.length
  if stop = 0 then (RuneError, 0)
  else
    let start := stop - 1
    let r := byteAt s start
    if r < RuneSelf then (r, 1)
    else
      let lim := stop - 4
      let start := match lastRuneStart s lim 4 (if start = 0 then none else some (start - 1)) with
        | none => 0
        | some i => i
      let (r, size) := DecodeRuneInString ((s.drop start).take (stop - start))
      if start + size ≠ stop then (RuneError, 1)
      else (r, size)

/-- Go `unicode.IsSpace(r)`: the Latin-1 spaces, and beyond Latin-1 the
`White_Space` range table. -/
def IsSpace (r : Nat) : Bool :=
  if r ≤ 0xFF then
    decide (r = 0x09 ∨ r = 0x0A ∨ r = 0x0B ∨ r = 0x0C ∨ r = 0x0D ∨ r = 0x20 ∨ r = 0x85 ∨ r = 0xA0)
  else
    decide (r = 0x1680 ∨ (0x2000 ≤ r ∧ r ≤ 0x200A) ∨ (0x2028 ≤ r ∧ r ≤ 0x2029) ∨ r = 0x202F
      ∨ r = 0x205F ∨ r = 0x3000)

/-- Go `strings.TrimLeftFunc(s, unicode.IsSpace)`: drops the leading runes
that are spaces; `fuel` bounds the number of runes. -/
def trimLeftSpace : Nat → GoString → GoString
  | 0, _ => []
  | fuel + 1, s =>
    if s = [] then []
    else
      let (r, size) := DecodeRuneInString s
      if IsSpace r = false then s
      else trimLeftSpace fuel (s.drop size)

/-- Go `lastIndexFunc(s, unicode.IsSpace, false)`: the index of the last rune
of `s[0:i]` that is not a space, if there is one. -/
def lastIndexNotSpace (s : GoString) : Nat → Nat → Option Nat
  | 0, _ => none
  | fuel + 1, i =>
    if i = 0 then none
    else
      let (r, size) := DecodeLastRuneInString (s.take i)
      let i := i - size
      if IsSpace r = false then some i
      else lastIndexNotSpace s fuel i

/-- Go `strings.TrimRightFunc(s, unicode.IsSpace)`. -/
def TrimRightFunc (s : GoString) : GoString :=
  match lastIndexNotSpace s s.length s.length with
  | some i =>
    if byteAt s i ≥ RuneSelf then s.take (i + (DecodeRuneInString (s.drop i)).2)
    else s.take (i + 1)
  | none => s.take 0

/-- Go `strings.TrimFunc(s, unicode.IsSpace)`. -/
def TrimFunc (s : GoString) : GoString :=
  TrimRightFunc (trimLeftSpace s.length s)

/-- The table `asciiSpace` of package `strings`. -/
def asciiSpace (c : Nat) : Bool :=
  decide (c = 0x09 ∨ c = 0x0A ∨ c = 0x0B ∨ c = 0x0C ∨ c = 0x0D ∨ c = 0x20)

/-- The second loop of `strings.TrimSpace`, on the reversed rest `s[start:]`:
it moves `stop` down over ASCII spaces. -/
def trimSpaceStop : GoString → GoString
  | [] => []
  | c :: before =>
    if c.val ≥ RuneSelf then TrimRightFunc (c :: before).reverse
    else if asciiSpace c.val then trimSpaceStop before
    else (c :: before).reverse

/-- Go `strings.TrimSpace(s)`: the first loop moves `start` up over ASCII
spaces, and hands over to `TrimFunc` at the first non-ASCII byte. -/
def TrimSpace : GoString → GoString
  | [] => trimSpaceStop []
  | c :: rest =>
    if c.val ≥ RuneSelf then TrimFunc (c :: rest)
    else if asciiSpace c.val then TrimSpace rest
    else trimSpaceStop (c :: rest).reverse

/-! ## filepath.Join, on Unix -/

/-- The path elements of `path` that `filepath.Clean` processes: the
substrings between separators, without the empty ones and the `.` ones. -/
def pathElems (path : GoString) : List GoString :=
  (Split path 47).filter (fun e => decide (e ≠ [] ∧ e ≠ [46]))

/-- One step of the loop of `filepath.Clean`, on the output written so far
as a stack of elements (last element first): a `..` element removes the last
element when there is one to remove, is dropped at the root, and is kept
otherwise; any other element is appended. -/
def cleanStep (rooted : Bool) (out : List GoString) (e : GoString) : List GoString :=
  if e = [46, 46] then
    match out with
    | [] => if rooted then [] else [e]
    | top :: below => if top = [46, 46] then (if rooted then out else e :: out) else below
  else e :: out

/-- Go `filepath.Clean(path)` on Unix: the shortest equivalent path, by
purely lexical processing. -/
def Clean (path : GoString) : GoString :=
  if path = [] then [46]
  else
    let rooted := decide (path.head? = some 47)
    let out := (pathElems path).foldl (cleanStep rooted) []
    if rooted then 47 :: stringsJoin out.reverse [47]
    else if out = [] then [46]
    else stringsJoin out.reverse [47]

/-- Go `filepath.Join(elem...)` on Unix: the elements from the first
non-empty one on, joined with the separator and cleaned; the empty string
when every element is empty. -/
def Join : List GoString → GoString
  | [] => []
  | e :: rest => if e ≠ [] then Clean (stringsJoin (e :: rest) [47]) else Join rest

/-! ## The external world and the program -/

/-- How an external command ended: it exited with a code, or it could not be
run to an exit (it was not found, could not be started, or was killed). -/
inductive CmdStatus where
  | exit (code : Nat)
  | failed
  deriving DecidableEq, Repr

/-- The `err != nil` of `cmd.Run()` and `cmd.CombinedOutput()`: every status
but a zero exit code. -/
def CmdStatus.isErr (st : CmdStatus) : Bool := decide (st ≠ .exit 0)

/-- The error of `os.Stat`, as far as `createOutputDirectory` looks at it. -/
inductive StatErr where
  | none
  | notExist
  | other
  deriving DecidableEq, Repr

/-- The outside of the program: what the file system and the two external
tools answer.  The encoder is asked with the number of encoder invocations
made before, so that its answers may depend on the history of the run. -/
structure World where
  stat : GoString → StatErr
  mkdirAllFails : GoString → Bool
  ffprobe : List GoString → CmdStatus × GoString
  ffmpeg : Nat → List GoString → CmdStatus

/-- An observable action of the program. -/
inductive Event where
  | showHelp
  | stat (path : GoString)
  | mkdirAll (path : GoString) (perm : Nat)
  | exec (name : GoString) (args : List GoString)
  deriving DecidableEq, Repr

/-- The error values of `createOutputDirectory`. -/
inductive DirError where
  | creating
  | checking
  deriving DecidableEq, Repr

/-- The error values of `getVideoResolution`. -/
inductive ProbeError where
  | running
  | noResolution
  deriving DecidableEq, Repr

/-- The `log.Fatal` call that ended the run; `hlsVariant` carries the variant
named by the `log.Printf` before it. -/
inductive Fatal where
  | outputDirectory (e : DirError)
  | resolution (e : ProbeError)
  | invalidResolution
  | hlsVariant (variant : GoString)
  deriving DecidableEq, Repr

/-- How the process ends: `main` returns (exit status 0), `log.Fatal` exits
with status 1, or a panic aborts it. -/
inductive Exit where
  | returned
  | fatal (f : Fatal)
  | panicked (p : Panic)
  deriving DecidableEq, Repr

/-- A run of the program: what it did, in order, and how it ended. -/
structure Run where
  trace : List Event
  exit : Exit
  deriving DecidableEq, Repr

/-- Source `createOutputDirectory` (main.go, lines 113-128): its actions and
its error, if any. -/
def createOutputDirectory (w : World) (outputDir : GoString) : List Event × Option DirError :=
  match w.stat outputDir with
  | .notExist =>
    if w.mkdirAllFails outputDir then
      ([.stat outputDir, .mkdirAll outputDir 0o755], some .creating)
    else ([.stat outputDir, .mkdirAll outputDir 0o755], none)
  | .other => ([.stat outputDir], some .checking)
  | .none => ([.stat outputDir], none)

/-- The arguments of the `ffprobe` command of `getVideoResolution`. -/
def probeArgs (inputFile : GoString) : List GoString :=
  [lit "-v", lit "error", lit "-select_streams", lit "v:0", lit "-show_entries",
    lit "stream=width,height", lit "-of", lit "csv=s=x:p=0", inputFile]

/-- Source `getVideoResolution` (main.go, lines 130-146): its actions and its
result. -/
def getVideoResolution (w : World) (inputFile : GoString) :
    List Event × Except ProbeError GoString :=
  let (status, output) := w.ffprobe (probeArgs inputFile)
  let tr := [Event.exec (lit "ffprobe") (probeArgs inputFile)]
  if status.isErr then (tr, .error .running)
  else
    let resolution := TrimSpace output
    if resolution = [] then (tr, .error .noResolution)
    else (tr, .ok resolution)

/-- The map `variants` of `main`, as the list of its entries. -/
def variants : List (GoString × GoString) :=
  [(lit "1080p", lit "1920x1080"), (lit "720p", lit "1280x720"), (lit "480p", lit "854x480")]

/-- The arguments of the `ffmpeg` command of one iteration of the loop of
`main` (main.go, lines 77-79). -/
def encoderArgs (inputFile outputDir variant scale : GoString) : List GoString :=
  let outputVariantDir := Join [outputDir, variant]
  let outputPath := Join [outputVariantDir, lit "variant_" ++ variant ++ lit ".m3u8"]
  [lit "-i", inputFile, lit "-vf", lit "scale=" ++ scale, lit "-c:a", lit "aac", lit "-b:a",
    lit "192k", lit "-c:v", lit "h264", lit "-b:v", lit "2M", lit "-hls_time", lit "10",
    lit "-hls_list_size", lit "6", lit "-hls_flags", lit "delete_segments", outputPath]

/-- The loop of `main` (main.go, lines 76-85) over the entries still to
visit; `done` counts the encoder invocations made before, `tr` is the trace
so far. -/
def renditionLoop (w : World) (inputFile outputDir : GoString) :
    List (GoString × GoString) → Nat → List Event → Run
  | [], _, tr => ⟨tr, .returned⟩
  | (variant, scale) :: rest, done, tr =>
    let args := encoderArgs inputFile outputDir variant scale
    let tr := tr ++ [Event.exec (lit "ffmpeg") args]
    if (w.ffmpeg done args).isErr then ⟨tr, .fatal (.hlsVariant variant)⟩
    else renditionLoop w inputFile outputDir rest (done + 1) tr

/-- Source `main` (main.go, lines 45-86), on a platform with `int` of
`intSize` bits, in the world `w`; `order` is the order in which `range`
visits the entries of the map `variants`. -/
def main (intSize : Nat) (w : World) (order : List (GoString × GoString))
    (inputFile outputDir : GoString) : Run :=
  if inputFile = [] ∨ outputDir = [] then ⟨[.showHelp], .returned⟩
  else
    match createOutputDirectory w outputDir with
    | (tr1, some e) => ⟨tr1, .fatal (.outputDirectory e)⟩
    | (tr1, none) =>
      match getVideoResolution w inputFile with
      | (tr2, .error e) => ⟨tr1 ++ tr2, .fatal (.resolution e)⟩
      | (tr2, .ok resolution) =>
        match isResolutionValid intSize resolution with
        | .error p => ⟨tr1 ++ tr2, .panicked p⟩
        | .ok false => ⟨tr1 ++ tr2, .fatal .invalidResolution⟩
        | .ok true => renditionLoop w inputFile outputDir order 0 (tr1 ++ tr2)

/-- The encoder invocations of a trace: the argument lists of its `ffmpeg`
commands, in order. -/
def encoderInvocations (tr : List Event) : List (List GoString) :=
  tr.filterMap (fun e =>
    match e with
    | .exec name args => if name = lit "ffmpeg" then some args else none
    | _ => none)

/-- A world for examples: the output directory does not exist and can be
created, the prober prints `probe` and exits with `probeCode`, and the
encoder fails exactly on its invocation number `failAt`, if any. -/
def exampleWorld (probeCode : Nat) (probe : GoString) (failAt : Option Nat) : World where
  stat := fun _ => .notExist
  mkdirAllFails := fun _ => false
  ffprobe := fun _ => (.exit probeCode, probe)
  ffmpeg := fun i _ => if some i = failAt then .exit 1 else .exit 0

/-! ## Definitions used to state and prove the properties -/

/-- Value of a run of decimal digit bytes read after the number `n`. -/
def digitsVal (ds : GoString) (n : Nat) : Nat :=
  ds.foldl (fun a c => a * 10 + (c.val - 48)) n

/-- A byte is an ASCII decimal digit. -/
def isDigit (c : Byte) : Prop := 48 ≤ c.val ∧ c.val ≤ 57

instance instDecidableIsDigit (c : Byte) : Decidable (isDigit c) := by
  unfold isDigit; infer_instance

/-- The value of a non-empty run of decimal digits, if `ds` is one. -/
def decimalValue (ds : GoString) : Option Nat :=
  if ds ≠ [] ∧ ∀ c ∈ ds, isDigit c then some (digitsVal ds 0) else none

/-- What `strconv.Atoi` is documented to compute: an optional sign, then a
non-empty run of decimal digits, whose value fits a signed integer of `k`
bits. -/
def atoiSpec (k : Nat) (s : GoString) : Option Int :=
  if s.head? = some 45 then
    match decimalValue s.tail with
    | some m => if m ≤ 2 ^ (k - 1) then some (-(m : Int)) else none
    | none => none
  else
    match decimalValue (if s.head? = some 43 then s.tail else s) with
    | some m => if m < 2 ^ (k - 1) then some (m : Int) else none
    | none => none

/-- A path element as `Clean` processes them: not empty, without separator,
and not `.`. -/
def plainElem (e : GoString) : Prop := e ≠ [] ∧ (47 : Byte) ∉ e ∧ e ≠ [46]

instance instDecidablePlainElem (e : GoString) : Decidable (plainElem e) := by
  unfold plainElem; infer_instance

/-- The output stack of `Clean` is in canonical form: below a `..` element
there are only `..` elements, and at the root there is none. -/
def canon (rooted : Bool) : List GoString → Prop
  | [] => True
  | e :: below =>
    plainElem e ∧ (e = [46, 46] → rooted = false ∧ ∀ x ∈ below, x = [46, 46]) ∧
      canon rooted below

/-- The output stack of `Clean` after the whole path was read. -/
def cleanOut (rooted : Bool) (path : GoString) : List GoString :=
  (pathElems path).foldl (cleanStep rooted) []

/-- The string `Clean` returns for an output stack. -/
def render (rooted : Bool) (out : List GoString) : GoString :=
  if rooted then 47 :: stringsJoin out.reverse [47]
  else if out = [] then [46]
  else stringsJoin out.reverse [47]

/-- The encoder command line the specification gives for a rendition:
`-i <input> -vf scale=<scale> -c:a aac -b:a 192k -c:v h264 -b:v 2M -hls_time 10
-hls_list_size 6 -hls_flags delete_segments <path>`, with `<path>` the join
of the output root, the rendition name and `variant_<name>.m3u8`. -/
def specifiedArgs (inputFile outputRoot name scale : GoString) : List GoString :=
  [lit "-i", inputFile, lit "-vf", lit "scale=" ++ scale, lit "-c:a", lit "aac", lit "-b:a",
    lit "192k", lit "-c:v", lit "h264", lit "-b:v", lit "2M", lit "-hls_time", lit "10",
    lit "-hls_list_size", lit "6", lit "-hls_flags", lit "delete_segments",
    Join [outputRoot, name, lit "variant_" ++ name ++ lit ".m3u8"]]

/-- The code points with the Unicode property `White_Space`. -/
def whiteSpaceRunes : List Nat :=
  [0x09, 0x0A, 0x0B, 0x0C, 0x0D, 0x20, 0x85, 0xA0, 0x1680, 0x2000, 0x2001, 0x2002, 0x2003,
    0x2004, 0x2005, 0x2006, 0x2007, 0x2008, 0x2009, 0x200A, 0x2028, 0x2029, 0x202F, 0x205F,
    0x3000]

/-- The white-space characters as they stand in a string: the UTF-8 encodings
of the `White_Space` code points. -/
def whiteSpace : List GoString :=
  whiteSpaceRunes.map (fun r => (utf8Bytes r).map (fun b => (Fin.ofNat b : Byte)))

/-- A string that consists of white-space characters only (possibly none). -/
def IsWhiteSpaceRun (p : GoString) : Prop :=
  ∃ chunks : List GoString, (∀ c ∈ chunks, c ∈ whiteSpace) ∧ p = chunks.flatten

/-- The string `t` does not start with a white-space character. -/
def NoLeadingSpace (t : GoString) : Prop := ∀ w ∈ whiteSpace, ¬ w <+: t

/-- The string `t` does not end with a white-space character. -/
def NoTrailingSpace (t : GoString) : Prop := ∀ w ∈ whiteSpace, ¬ w <:+ t

/-- The string `t` is `s` trimmed of leading and trailing white space: `s` is
`t` between two runs of white-space characters, and `t` neither starts nor
ends with a white-space character. -/
def IsTrimmed (t s : GoString) : Prop :=
  ∃ pre post, s = pre ++ t ++ post ∧ IsWhiteSpaceRun pre ∧ IsWhiteSpaceRun post ∧
    NoLeadingSpace t ∧ NoTrailingSpace t

/-- The white-space characters, by their bytes. -/
def wsClass (w : GoString) : Prop :=
  match w with
  | [c] => c.val = 0x09 ∨ c.val = 0x0A ∨ c.val = 0x0B ∨ c.val = 0x0C ∨ c.val = 0x0D ∨ c.val = 0x20
  | [c0, c1] => c0.val = 0xC2 ∧ (c1.val = 0x85 ∨ c1.val = 0xA0)
  | [c0, c1, c2] =>
    (c0.val = 0xE1 ∧ c1.val = 0x9A ∧ c2.val = 0x80) ∨
    (c0.val = 0xE2 ∧ c1.val = 0x80 ∧
      ((0x80 ≤ c2.val ∧ c2.val ≤ 0x8A) ∨ c2.val = 0xA8 ∨ c2.val = 0xA9 ∨ c2.val = 0xAF)) ∨
    (c0.val = 0xE2 ∧ c1.val = 0x81 ∧ c2.val = 0x9F) ∨
    (c0.val = 0xE3 ∧ c1.val = 0x80 ∧ c2.val = 0x80)
  | _ => False

instance instDecidableWsClass (w : GoString) : Decidable (wsClass w) := by
  unfold wsClass
  split <;> infer_instance

/-- The least second byte the decoder accepts after the first byte `b0`. -/
def secondLo (b0 : Nat) : Nat :=
  if b0 = 0xE0 then 0xA0 else if b0 = 0xF0 then 0x90 else 0x80

/-- The greatest second byte the decoder accepts after the first byte `b0`. -/
def secondHi (b0 : Nat) : Nat :=
  if b0 = 0xED then 0x9F else if b0 = 0xF4 then 0x8F else 0xBF

/-- The index from which `DecodeLastRuneInString` decodes, for a string that
ends in a byte outside ASCII. -/
def lastStart (s : GoString) : Nat :=
  match lastRuneStart s (s.length - 4) 4
      (if s.length - 1 = 0 then none else some (s.length - 1 - 1)) with
  | none => 0
  | some i => i

/-- A concatenation of words of the list `A`. -/
def RunOf (A : List GoString) (p : GoString) : Prop :=
  ∃ chunks : List GoString, (∀ c ∈ chunks, c ∈ A) ∧ p = chunks.flatten

/-! ## The embedded library functions on concrete inputs -/

set_option maxRecDepth 100000

theorem lit_example : lit "1920x1080" = [49, 57, 50, 48, 120, 49, 48, 56, 48] := by decide

theorem Split_examples :
    Split (lit "1920x1080") 120 = [lit "1920", lit "1080"] ∧
    Split (lit "") 120 = [lit ""] ∧
    Split (lit "1920x1080x") 120 = [lit "1920", lit "1080", lit ""] ∧
    Split (lit "x") 120 = [lit "", lit ""] := by decide

theorem Atoi_examples :
    Atoi 64 (lit "1920") = .ok 1920 ∧
    Atoi 64 (lit "+7") = .ok 7 ∧
    Atoi 64 (lit "-0") = .ok 0 ∧
    Atoi 64 (lit "") = .error .ErrSyntax ∧
    Atoi 64 (lit "-") = .error .ErrSyntax ∧
    Atoi 64 (lit " 1920") = .error .ErrSyntax ∧
    Atoi 64 (lit "1_000") = .error .ErrSyntax ∧
    Atoi 64 (lit "abc") = .error .ErrSyntax ∧
    Atoi 64 (lit "-9223372036854775808") = .ok (-9223372036854775808) ∧
    Atoi 64 (lit "9223372036854775808") = .error .ErrRange ∧
    Atoi 64 (lit "99999999999999999999999") = .error .ErrRange ∧
    Atoi 32 (lit "2147483647") = .ok 2147483647 ∧
    Atoi 32 (lit "2147483648") = .error .ErrRange := by decide

theorem Itoa_examples :
    Itoa 0 = lit "0" ∧ Itoa 1920 = lit "1920" ∧ Itoa (-1080) = lit "-1080" ∧
    Itoa (-9223372036854775808) = lit "-9223372036854775808" := by decide

theorem TrimSpace_examples :
    TrimSpace (lit " \t1920x1080\r\n") = lit "1920x1080" ∧
    TrimSpace (lit "  \n") = lit "" ∧
    TrimSpace (lit "  a b\u3000 ") = lit "a b" ∧
    TrimSpace (lit " \u00e9 ") = lit "\u00e9" ∧
    TrimSpace [32, 0xC2] = [0xC2] := by decide

theorem Join_examples :
    Clean (lit "a//b/./c/..") = lit "a/b" ∧
    Clean (lit "/../a/../..") = lit "/" ∧
    Clean (lit "../../a/../../b") = lit "../../../b" ∧
    Clean (lit "a/..") = lit "." ∧
    Join [lit "out", lit "1080p"] = lit "out/1080p" ∧
    Join [lit "", lit "1080p"] = lit "1080p" ∧
    Join [lit "out/", lit "", lit "x"] = lit "out/x" ∧
    Join [lit "", lit ""] = lit "" ∧
    Join [lit "./out/../o", lit "720p", lit "variant_720p.m3u8"]
      = lit "o/720p/variant_720p.m3u8" := by decide

/-! ## Lemmas on strconv -/

theorem digitsVal_nil (n : Nat) : digitsVal [] n = n := rfl

theorem digitsVal_cons (c : Byte) (ds : GoString) (n : Nat) :
    digitsVal (c :: ds) n = digitsVal ds (n * 10 + (c.val - 48)) := rfl

theorem digitsVal_ge (ds : GoString) (n : Nat) : n ≤ digitsVal ds n := by
  induction ds generalizing n with
  | nil => exact le_refl _
  | cons c ds ih =>
    rw [digitsVal_cons]
    have := ih (n * 10 + (c.val - 48))
    omega

theorem digitsVal_lt (ds : GoString) (n : Nat) (hd : ∀ c ∈ ds, isDigit c) :
    digitsVal ds n < (n + 1) * 10 ^ ds.length := by
  induction ds generalizing n with
  | nil => simp [digitsVal_nil]
  | cons c ds ih =>
    have hc : isDigit c := hd c (List.mem_cons_self _ _)
    unfold isDigit at hc
    rw [digitsVal_cons]
    have h1 := ih (n * 10 + (c.val - 48)) (fun x hx => hd x (List.mem_cons_of_mem _ hx))
    have h2 : (n * 10 + (c.val - 48) + 1) * 10 ^ ds.length ≤ ((n + 1) * 10) * 10 ^ ds.length :=
      Nat.mul_le_mul_right _ (by omega)
    rw [List.length_cons, pow_succ]
    calc digitsVal ds (n * 10 + (c.val - 48))
        < (n * 10 + (c.val - 48) + 1) * 10 ^ ds.length := h1
      _ ≤ ((n + 1) * 10) * 10 ^ ds.length := h2
      _ = (n + 1) * (10 ^ ds.length * 10) := by ring

theorem pow_pred_double (k : Nat) (hk : 1 ≤ k) : (2 : Int) ^ k = 2 * 2 ^ (k - 1) := by
  obtain ⟨j, rfl⟩ : ∃ j, k = j + 1 := ⟨k - 1, by omega⟩
  simp [pow_succ]
  ring

theorem wrapInt_of_range (k : Nat) (hk : 1 ≤ k) (x : Int)
    (h0 : -2 ^ (k - 1) ≤ x) (h1 : x < 2 ^ (k - 1)) : wrapInt k x = x := by
  unfold wrapInt
  have h2 := pow_pred_double k hk
  generalize (2 : Int) ^ (k - 1) = p at *
  rw [h2, Int.emod_eq_of_lt (by omega) (by omega)]
  omega

theorem byteSub_digit (c : Byte) (h : isDigit c) : byteSub c 48 = c.val - 48 := by
  unfold isDigit at h
  unfold byteSub
  have : ((48 : Byte) : Nat) = 48 := rfl
  omega

theorem byteSub_not_digit (c : Byte) (h : ¬ isDigit c) : byteSub c 48 > 9 := by
  unfold isDigit at h
  unfold byteSub
  have : ((48 : Byte) : Nat) = 48 := rfl
  have := c.isLt
  omega

theorem atoiLoop_digits (k : Nat) (hk : 1 ≤ k) (ds : GoString) (n : Nat)
    (hd : ∀ c ∈ ds, isDigit c) (hb : (digitsVal ds n : Int) < 2 ^ (k - 1)) :
    atoiLoop k ds (n : Int) = .ok (digitsVal ds n : Int) := by
  induction ds generalizing n with
  | nil => rfl
  | cons c ds ih =>
    have hc : isDigit c := hd c (List.mem_cons_self _ _)
    have hc2 := hc
    unfold isDigit at hc2
    rw [digitsVal_cons] at hb ⊢
    have hge := digitsVal_ge ds (n * 10 + (c.val - 48))
    have hlt : ((n * 10 + (c.val - 48) : Nat) : Int) < 2 ^ (k - 1) :=
      lt_of_le_of_lt (by exact_mod_cast hge) hb
    have hpos : (0 : Int) < 2 ^ (k - 1) := by positivity
    have hw : wrapInt k ((n : Int) * 10 + ((c.val - 48 : Nat) : Int))
        = ((n * 10 + (c.val - 48) : Nat) : Int) := by
      rw [wrapInt_of_range k hk]
      · push_cast; rfl
      · have : (0 : Int) ≤ (n : Int) * 10 + ((c.val - 48 : Nat) : Int) := by positivity
        omega
      · have : ((n * 10 + (c.val - 48) : Nat) : Int)
            = (n : Int) * 10 + ((c.val - 48 : Nat) : Int) := by
          push_cast; rfl
        omega
    unfold atoiLoop
    simp only [byteSub_digit c hc]
    rw [if_neg (by omega), hw]
    exact ih _ (fun x hx => hd x (List.mem_cons_of_mem _ hx)) hb

theorem atoiLoop_not_digits (k : Nat) (ds : GoString) (n : Int)
    (hd : ¬ ∀ c ∈ ds, isDigit c) : atoiLoop k ds n = .error .ErrSyntax := by
  induction ds generalizing n with
  | nil => simp at hd
  | cons c ds ih =>
    unfold atoiLoop
    by_cases hc : isDigit c
    · simp only [byteSub_digit c hc]
      unfold isDigit at hc
      rw [if_neg (by omega)]
      apply ih
      intro hall
      apply hd
      intro x hx
      rcases List.mem_cons.mp hx with rfl | hx
      · exact hc
      · exact hall x hx
    · have := byteSub_not_digit c hc
      simp only [this, if_true]

theorem parseUintLoop_digits (k : Nat) (hk : k ≤ 64) (ds : GoString) (n : Nat)
    (hd : ∀ c ∈ ds, isDigit c) (hb : digitsVal ds n ≤ 2 ^ k - 1) :
    parseUintLoop k ds n = (digitsVal ds n, none) := by
  induction ds generalizing n with
  | nil => rfl
  | cons c ds ih =>
    have hc : isDigit c := hd c (List.mem_cons_self _ _)
    unfold isDigit at hc
    rw [digitsVal_cons] at hb ⊢
    have hge := digitsVal_ge ds (n * 10 + (c.val - 48))
    have hk2 : 2 ^ k ≤ 2 ^ 64 := Nat.pow_le_pow_right (by norm_num) hk
    have hpos : 0 < 2 ^ k := by positivity
    norm_num at hk2
    unfold parseUintLoop
    simp only [hc, and_self, if_true]
    have h1 : ¬ (c.val - 48 ≥ 10) := by omega
    have h2 : ¬ (n ≥ (2 ^ 64 - 1) / 10 + 1) := by norm_num; omega
    have h3 : (n * 10 + (c.val - 48)) % 2 ^ 64 = n * 10 + (c.val - 48) := by
      apply Nat.mod_eq_of_lt; norm_num; omega
    simp only [h1, h2, h3, if_false]
    rw [if_neg (by omega)]
    exact ih _ (fun x hx => hd x (List.mem_cons_of_mem _ hx)) hb

theorem parseUintLoop_not_digits (k : Nat) (ds : GoString) (n : Nat)
    (hd : ¬ ∀ c ∈ ds, isDigit c) :
    parseUintLoop k ds n = (0, some .ErrSyntax) ∨
      parseUintLoop k ds n = (2 ^ k - 1, some .ErrRange) := by
  induction ds generalizing n with
  | nil => simp at hd
  | cons c ds ih =>
    unfold parseUintLoop
    by_cases hc : isDigit c
    · have hc2 := hc
      unfold isDigit at hc2
      simp only [hc2, and_self, if_true]
      have h1 : ¬ (c.val - 48 ≥ 10) := by omega
      simp only [h1, if_false]
      split_ifs
      · exact Or.inr rfl
      · exact Or.inr rfl
      · apply ih
        intro hall
        apply hd
        intro x hx
        rcases List.mem_cons.mp hx with rfl | hx
        · exact hc
        · exact hall x hx
    · have hc2 : ¬ (48 ≤ c.val ∧ c.val ≤ 57) := hc
      simp only [hc2, if_false]
      by_cases h1 : 97 ≤ lower c ∧ lower c ≤ 122
      · simp only [h1, and_self, if_true]
        rw [if_pos (by omega)]
        exact Or.inl rfl
      · simp [h1]

theorem parseUintLoop_overflow (k : Nat) (ds : GoString) (n : Nat)
    (hd : ∀ c ∈ ds, isDigit c) (hn : n ≤ 2 ^ k - 1) (hb : 2 ^ k - 1 < digitsVal ds n) :
    parseUintLoop k ds n = (2 ^ k - 1, some .ErrRange) := by
  induction ds generalizing n with
  | nil => rw [digitsVal_nil] at hb; omega
  | cons c ds ih =>
    have hc : isDigit c := hd c (List.mem_cons_self _ _)
    unfold isDigit at hc
    rw [digitsVal_cons] at hb
    unfold parseUintLoop
    simp only [hc, and_self, if_true]
    have h1 : ¬ (c.val - 48 ≥ 10) := by omega
    simp only [h1, if_false]
    by_cases h2 : n ≥ (2 ^ 64 - 1) / 10 + 1
    · rw [if_pos h2]
    · rw [if_neg h2]
      by_cases h5 : n * 10 + (c.val - 48) < 2 ^ 64
      · have h3 : (n * 10 + (c.val - 48)) % 2 ^ 64 = n * 10 + (c.val - 48) :=
          Nat.mod_eq_of_lt h5
        simp only [h3]
        split_ifs with h4
        · rfl
        · exact ih _ (fun x hx => hd x (List.mem_cons_of_mem _ hx)) (by omega) hb
      · have h3 : (n * 10 + (c.val - 48)) % 2 ^ 64 < n * 10 := by
          norm_num at h2 h5 ⊢
          omega
        rw [if_pos (Or.inl h3)]

/-- The three possible results of `ParseUint`, by what the string is. -/
theorem ParseUint_cases (k : Nat) (hk : k ≤ 64) (t : GoString) :
    (∃ m, decimalValue t = some m ∧ m ≤ 2 ^ k - 1 ∧ ParseUint k t = (m, none)) ∨
    (∃ m, decimalValue t = some m ∧ 2 ^ k - 1 < m ∧
      ParseUint k t = (2 ^ k - 1, some .ErrRange)) ∨
    (decimalValue t = none ∧ (ParseUint k t = (0, some .ErrSyntax) ∨
      ParseUint k t = (2 ^ k - 1, some .ErrRange))) := by
  unfold ParseUint decimalValue
  by_cases ht : t = []
  · subst ht
    simp
  · rw [if_neg ht]
    by_cases hd : ∀ c ∈ t, isDigit c
    · rw [if_pos ⟨ht, hd⟩]
      by_cases hb : digitsVal t 0 ≤ 2 ^ k - 1
      · exact Or.inl ⟨_, rfl, hb, parseUintLoop_digits k hk t 0 hd hb⟩
      · exact Or.inr (Or.inl ⟨_, rfl, by omega,
          parseUintLoop_overflow k t 0 hd (Nat.zero_le _) (by omega)⟩)
    · rw [if_neg (fun h => hd h.2)]
      exact Or.inr (Or.inr ⟨rfl, parseUintLoop_not_digits k t 0 hd⟩)

theorem two_pow_pred_lt (k : Nat) (hk : 2 ≤ k) : 2 ^ (k - 1) < 2 ^ k - 1 := by
  obtain ⟨j, rfl⟩ : ∃ j, k = j + 2 := ⟨k - 2, by omega⟩
  have : 2 ^ (j + 2) = 2 * 2 ^ (j + 1) := by rw [pow_succ]; ring
  have h2 : 2 ≤ 2 ^ (j + 1) := by
    calc 2 = 2 ^ 1 := by norm_num
      _ ≤ 2 ^ (j + 1) := Nat.pow_le_pow_right (by norm_num) (by omega)
  simp only [Nat.add_sub_cancel] at *
  show 2 ^ (j + 1) < 2 ^ (j + 2) - 1
  omega

/-- The result of `ParseInt` is the documented value. -/
theorem ParseInt_spec (k : Nat) (hk2 : 2 ≤ k) (hk : k ≤ 64) (s : GoString) :
    (ParseInt k s).toOption = atoiSpec k s := by
  have hlt := two_pow_pred_lt k hk2
  unfold ParseInt atoiSpec
  cases s with
  | nil => simp [decimalValue, Except.toOption]
  | cons c t =>
    rw [if_neg (List.cons_ne_nil _ _)]
    simp only [List.head?_cons, List.tail_cons, Option.some.injEq]
    by_cases h45 : c = 45
    · have h43 : ¬ c = 43 := by rw [h45]; decide
      simp only [h45, if_true]
      have h43b : ¬ ((45 : Byte) = 43) := by decide
      simp only [h43b, if_false]
      rcases ParseUint_cases k hk t with ⟨m, h1, h2, h3⟩ | ⟨m, h1, h2, h3⟩ | ⟨h1, h3 | h3⟩
      · rw [h1, h3]
        by_cases h4 : m ≤ 2 ^ (k - 1)
        · have h5 : ¬ (2 ^ (k - 1) < m) := by omega
          simp [h4, h5, Except.toOption]
        · have h5 : 2 ^ (k - 1) < m := by omega
          simp [h4, h5, Except.toOption]
      · rw [h1, h3]
        have h4 : ¬ m ≤ 2 ^ (k - 1) := by omega
        simp [h4, hlt, Except.toOption]
      · rw [h1, h3]
        simp [Except.toOption]
      · rw [h1, h3]
        simp [hlt, Except.toOption]
    · simp only [h45, if_false]
      rcases ParseUint_cases k hk (if c = 43 then t else c :: t) with
        ⟨m, h1, h2, h3⟩ | ⟨m, h1, h2, h3⟩ | ⟨h1, h3 | h3⟩
      · rw [h1, h3]
        by_cases h4 : m < 2 ^ (k - 1)
        · have h5 : ¬ (2 ^ (k - 1) ≤ m) := by omega
          simp [h4, h5, Except.toOption]
        · have h5 : 2 ^ (k - 1) ≤ m := by omega
          simp [h4, h5, Except.toOption]
      · rw [h1, h3]
        have h4 : ¬ m < 2 ^ (k - 1) := by omega
        simp [h4, hlt.le, Except.toOption]
      · rw [h1, h3]
        simp [Except.toOption]
      · rw [h1, h3]
        simp [hlt.le, Except.toOption]

theorem atoiLoop_zero (k : Nat) (hk : 1 ≤ k) (ds : GoString)
    (hd : ∀ c ∈ ds, isDigit c) (hb : digitsVal ds 0 < 2 ^ (k - 1)) :
    atoiLoop k ds 0 = .ok (digitsVal ds 0 : Int) := by
  have h := atoiLoop_digits k hk ds 0 hd (by exact_mod_cast hb)
  simpa using h

/-- A digit run short enough for the fast path of `Atoi` cannot overflow. -/
theorem fast_path_bound (k : Nat) (n : Nat) (ds : GoString)
    (hfast : (k = 32 ∧ n < 10) ∨ (k = 64 ∧ n < 19)) (hlen : ds.length ≤ n)
    (hd : ∀ c ∈ ds, isDigit c) : digitsVal ds 0 < 2 ^ (k - 1) := by
  have h1 := digitsVal_lt ds 0 hd
  simp only [zero_add, one_mul] at h1
  rcases hfast with ⟨rfl, hn⟩ | ⟨rfl, hn⟩
  · have h2 : 10 ^ ds.length ≤ 10 ^ 9 := Nat.pow_le_pow_right (by norm_num) (by omega)
    norm_num at h2 ⊢
    omega
  · have h2 : 10 ^ ds.length ≤ 10 ^ 18 := Nat.pow_le_pow_right (by norm_num) (by omega)
    norm_num at h2 ⊢
    omega

/-- The digit loop of the fast path, on a run that cannot overflow. -/
theorem atoiLoop_fast (k : Nat) (hk : 1 ≤ k) (ds : GoString)
    (hb : (∀ c ∈ ds, isDigit c) → digitsVal ds 0 < 2 ^ (k - 1)) :
    atoiLoop k ds 0 = if ∀ c ∈ ds, isDigit c then .ok (digitsVal ds 0 : Int)
      else .error .ErrSyntax := by
  by_cases hd : ∀ c ∈ ds, isDigit c
  · rw [if_pos hd]
    exact atoiLoop_zero k hk ds hd (hb hd)
  · rw [if_neg hd]
    exact atoiLoop_not_digits k ds 0 hd

/-- The result of `Atoi` is the documented value, on both of its paths. -/
theorem Atoi_spec (k : Nat) (hk : k = 32 ∨ k = 64) (s : GoString) :
    (Atoi k s).toOption = atoiSpec k s := by
  have hk1 : 1 ≤ k := by omega
  unfold Atoi
  simp only []
  by_cases hfast : (k = 32 ∧ 0 < s.length ∧ s.length < 10) ∨
      (k = 64 ∧ 0 < s.length ∧ s.length < 19)
  swap
  · rw [if_neg hfast]
    exact ParseInt_spec k (by omega) (by omega) s
  rw [if_pos hfast]
  have hfast2 : (k = 32 ∧ s.length < 10) ∨ (k = 64 ∧ s.length < 19) := by
    rcases hfast with ⟨h1, _, h2⟩ | ⟨h1, _, h2⟩
    · exact Or.inl ⟨h1, h2⟩
    · exact Or.inr ⟨h1, h2⟩
  unfold atoiSpec
  cases s with
  | nil => simp at hfast
  | cons c t =>
    have hbt : (∀ x ∈ t, isDigit x) → digitsVal t 0 < 2 ^ (k - 1) :=
      fast_path_bound k (c :: t).length t hfast2 (by simp)
    have hbs : (∀ x ∈ c :: t, isDigit x) → digitsVal (c :: t) 0 < 2 ^ (k - 1) :=
      fast_path_bound k (c :: t).length (c :: t) hfast2 (le_refl _)
    simp only [List.head?_cons, List.tail_cons, Option.some.injEq]
    by_cases h45 : c = 45
    · simp only [h45, true_or, if_true]
      cases t with
      | nil => simp [decimalValue, Except.toOption]
      | cons d u =>
        rw [if_neg (by simp)]
        rw [atoiLoop_fast k hk1 (d :: u) hbt]
        unfold decimalValue
        by_cases hd : ∀ x ∈ d :: u, isDigit x
        · have hb := hbt hd
          have hw : wrapInt k (-(digitsVal (d :: u) 0 : Int)) = -(digitsVal (d :: u) 0 : Int) := by
            apply wrapInt_of_range k hk1
            · have : (digitsVal (d :: u) 0 : Int) < 2 ^ (k - 1) := by exact_mod_cast hb
              omega
            · have : (0 : Int) < 2 ^ (k - 1) := by positivity
              have : (0 : Int) ≤ (digitsVal (d :: u) 0 : Int) := by positivity
              omega
          rw [if_pos hd, if_pos ⟨List.cons_ne_nil _ _, hd⟩]
          simp only [hw, Except.toOption]
          rw [if_pos hb.le]
        · rw [if_neg hd, if_neg (fun h => hd h.2)]
          rfl
    · have h45b : ¬ ((45 : Byte) = c) := fun h => h45 h.symm
      by_cases h43 : c = 43
      · have h4345 : ¬ ((43 : Byte) = 45) := by decide
        simp only [h43, h4345, or_true, if_true, if_false]
        cases t with
        | nil => simp [decimalValue, Except.toOption]
        | cons d u =>
          rw [if_neg (by simp)]
          rw [atoiLoop_fast k hk1 (d :: u) hbt]
          unfold decimalValue
          by_cases hd : ∀ x ∈ d :: u, isDigit x
          · have hb := hbt hd
            rw [if_pos hd, if_pos ⟨List.cons_ne_nil _ _, hd⟩]
            simp only [Except.toOption]
            rw [if_pos hb]
          · rw [if_neg hd, if_neg (fun h => hd h.2)]
            rfl
      · simp only [h45, h43, or_self, false_and, if_false]
        rw [atoiLoop_fast k hk1 (c :: t) hbs]
        unfold decimalValue
        by_cases hd : ∀ x ∈ c :: t, isDigit x
        · have hb := hbs hd
          rw [if_pos hd, if_pos ⟨List.cons_ne_nil _ _, hd⟩]
          simp only [Except.toOption]
          rw [if_pos hb]
        · rw [if_neg hd, if_neg (fun h => hd h.2)]
          rfl

theorem Atoi_eq_ok_iff (k : Nat) (hk : k = 32 ∨ k = 64) (s : GoString) (v : Int) :
    Atoi k s = .ok v ↔ atoiSpec k s = some v := by
  rw [← Atoi_spec k hk s]
  cases Atoi k s <;> simp [Except.toOption]

theorem Atoi_fails_iff (k : Nat) (hk : k = 32 ∨ k = 64) (s : GoString) :
    (∀ v, Atoi k s ≠ .ok v) ↔ atoiSpec k s = none := by
  rw [← Atoi_spec k hk s]
  cases Atoi k s <;> simp [Except.toOption]

theorem digitByte_isDigit (n : Nat) : isDigit (digitByte n) := by
  unfold isDigit digitByte
  simp only
  omega

theorem digitByte_val (n : Nat) : (digitByte n).val - 48 = n % 10 := by
  unfold digitByte
  simp

theorem decimalAux_digits (fuel n : Nat) (acc : GoString) (h : ∀ c ∈ acc, isDigit c) :
    ∀ c ∈ decimalAux fuel n acc, isDigit c := by
  induction fuel generalizing n acc with
  | zero => exact h
  | succ fuel ih =>
    have hcons : ∀ c ∈ digitByte n :: acc, isDigit c := by
      intro c hc
      rcases List.mem_cons.mp hc with rfl | hc
      · exact digitByte_isDigit n
      · exact h c hc
    unfold decimalAux
    split_ifs
    · exact hcons
    · exact ih _ _ hcons

theorem decimalAux_val (fuel n : Nat) (acc : GoString) (h : n < fuel) :
    digitsVal (decimalAux fuel n acc) 0 = digitsVal acc n := by
  induction fuel generalizing n acc with
  | zero => omega
  | succ fuel ih =>
    unfold decimalAux
    split_ifs with h10
    · rw [digitsVal_cons, digitByte_val]
      congr 1
      omega
    · rw [ih (n / 10) _ (by omega), digitsVal_cons, digitByte_val]
      congr 1
      omega

theorem decimalAux_ne_nil (fuel n : Nat) (acc : GoString) (h : 0 < fuel ∨ acc ≠ []) :
    decimalAux fuel n acc ≠ [] := by
  induction fuel generalizing n acc with
  | zero =>
    rcases h with h | h
    · omega
    · exact h
  | succ fuel ih =>
    unfold decimalAux
    split_ifs
    · exact List.cons_ne_nil _ _
    · exact ih _ _ (Or.inr (List.cons_ne_nil _ _))

theorem decimal_digits (n : Nat) : ∀ c ∈ decimal n, isDigit c :=
  decimalAux_digits _ _ _ (by simp)

theorem decimal_ne_nil (n : Nat) : decimal n ≠ [] :=
  decimalAux_ne_nil _ _ _ (Or.inl (by omega))

theorem decimal_val (n : Nat) : digitsVal (decimal n) 0 = n := by
  unfold decimal
  rw [decimalAux_val _ _ _ (by omega)]
  rfl

theorem decimalValue_decimal (n : Nat) : decimalValue (decimal n) = some n := by
  unfold decimalValue
  rw [if_pos ⟨decimal_ne_nil n, decimal_digits n⟩, decimal_val]

theorem decimal_head (n : Nat) : ∃ c t, decimal n = c :: t ∧ isDigit c := by
  have h1 := decimal_ne_nil n
  have h2 := decimal_digits n
  cases hds : decimal n with
  | nil => exact absurd hds h1
  | cons c t =>
    rw [hds] at h2
    exact ⟨c, t, rfl, h2 c (List.mem_cons_self _ _)⟩

/-- The documented value of a rendered integer is the integer. -/
theorem atoiSpec_Itoa (k : Nat) (W : Int) (h0 : -2 ^ (k - 1) ≤ W) (h1 : W < 2 ^ (k - 1)) :
    atoiSpec k (Itoa W) = some W := by
  unfold atoiSpec Itoa
  by_cases hneg : W < 0
  · rw [if_pos hneg]
    simp only [List.head?_cons, List.tail_cons, if_true, decimalValue_decimal]
    have hp : ((2 ^ (k - 1) : Nat) : Int) = (2 : Int) ^ (k - 1) := by push_cast; rfl
    have h2 : W.natAbs ≤ 2 ^ (k - 1) := by omega
    rw [if_pos h2]
    congr 1
    omega
  · rw [if_neg hneg]
    obtain ⟨c, t, hct, hc⟩ := decimal_head W.natAbs
    unfold isDigit at hc
    have h45 : ¬ (c = 45) := by
      intro h
      rw [h] at hc
      have : ((45 : Byte) : Nat) = 45 := rfl
      omega
    have h43 : ¬ (c = 43) := by
      intro h
      rw [h] at hc
      have : ((43 : Byte) : Nat) = 43 := rfl
      omega
    have e1 : (decimal W.natAbs).head? = some c := by rw [hct]; rfl
    simp only [e1, Option.some.injEq, h45, h43, if_false, decimalValue_decimal]
    have hp : ((2 ^ (k - 1) : Nat) : Int) = (2 : Int) ^ (k - 1) := by push_cast; rfl
    have h2 : W.natAbs < 2 ^ (k - 1) := by omega
    rw [if_pos h2]
    congr 1
    omega

theorem Atoi_Itoa (k : Nat) (hk : k = 32 ∨ k = 64) (W : Int)
    (h0 : -2 ^ (k - 1) ≤ W) (h1 : W < 2 ^ (k - 1)) : Atoi k (Itoa W) = .ok W :=
  (Atoi_eq_ok_iff k hk _ _).mpr (atoiSpec_Itoa k W h0 h1)

theorem Itoa_no_x (W : Int) : (120 : Byte) ∉ Itoa W := by
  have hd : (120 : Byte) ∉ decimal W.natAbs := by
    intro h
    have := decimal_digits _ _ h
    unfold isDigit at this
    have : ((120 : Byte) : Nat) = 120 := rfl
    omega
  unfold Itoa
  split_ifs
  · intro h
    rcases List.mem_cons.mp h with h | h
    · exact absurd h (by decide)
    · exact hd h
  · exact hd

/-! ## Lemmas on Split -/

theorem splitLoop_no_sep (sep : Byte) (s cur : GoString) (h : sep ∉ s) :
    splitLoop sep s cur = [cur.reverse ++ s] := by
  induction s generalizing cur with
  | nil => simp [splitLoop]
  | cons c s ih =>
    have hc : ¬ (c = sep) := fun e => h (e ▸ List.mem_cons_self _ _)
    unfold splitLoop
    rw [if_neg hc, ih _ (fun hm => h (List.mem_cons_of_mem _ hm))]
    simp

theorem splitLoop_append (sep : Byte) (s t cur : GoString) (h : sep ∉ s) :
    splitLoop sep (s ++ sep :: t) cur = (cur.reverse ++ s) :: splitLoop sep t [] := by
  induction s generalizing cur with
  | nil => simp [splitLoop]
  | cons c s ih =>
    have hc : ¬ (c = sep) := fun e => h (e ▸ List.mem_cons_self _ _)
    rw [List.cons_append]
    simp only [splitLoop, if_neg hc]
    rw [ih _ (fun hm => h (List.mem_cons_of_mem _ hm))]
    simp

theorem splitLoop_ne_nil (sep : Byte) (s cur : GoString) : splitLoop sep s cur ≠ [] := by
  induction s generalizing cur with
  | nil => simp [splitLoop]
  | cons c s ih =>
    simp only [splitLoop]
    split_ifs
    · exact List.cons_ne_nil _ _
    · exact ih _

theorem Split_no_sep (sep : Byte) (s : GoString) (h : sep ∉ s) : Split s sep = [s] := by
  unfold Split
  rw [splitLoop_no_sep sep s [] h]
  rfl

theorem Split_append (sep : Byte) (s t : GoString) (h : sep ∉ s) :
    Split (s ++ sep :: t) sep = s :: Split t sep := by
  unfold Split
  rw [splitLoop_append sep s t [] h]
  rfl

/-- A string that contains the separator splits into at least two tokens. -/
theorem Split_of_mem (sep : Byte) (s : GoString) (h : sep ∈ s) :
    ∃ t0 t1 rest, Split s sep = t0 :: t1 :: rest := by
  obtain ⟨a, b, hab, hna⟩ : ∃ a b, s = a ++ sep :: b ∧ sep ∉ a := by
    induction s with
    | nil => simp at h
    | cons c s ih =>
      by_cases hc : c = sep
      · exact ⟨[], s, by rw [hc]; rfl, by simp⟩
      · rcases List.mem_cons.mp h with h | h
        · exact absurd h.symm hc
        · obtain ⟨a, b, hab, hna⟩ := ih h
          refine ⟨c :: a, b, by rw [hab]; rfl, ?_⟩
          intro hm
          rcases List.mem_cons.mp hm with hm | hm
          · exact hc hm.symm
          · exact hna hm
  rw [hab, Split_append sep a b hna]
  cases hb : Split b sep with
  | nil => exact absurd hb (splitLoop_ne_nil sep b [])
  | cons t1 rest => exact ⟨a, t1, rest, rfl⟩

/-! ## Lemmas on filepath.Join -/

theorem splitLoop_append_any (sep : Byte) (a b cur : GoString) :
    splitLoop sep (a ++ sep :: b) cur = splitLoop sep a cur ++ splitLoop sep b [] := by
  induction a generalizing cur with
  | nil => simp [splitLoop]
  | cons c a ih =>
    rw [List.cons_append]
    by_cases hc : c = sep
    · simp only [splitLoop, if_pos hc, ih, List.cons_append]
    · simp only [splitLoop, if_neg hc, ih]

theorem Split_append_any (sep : Byte) (a b : GoString) :
    Split (a ++ sep :: b) sep = Split a sep ++ Split b sep := by
  unfold Split
  exact splitLoop_append_any sep a b []

theorem splitLoop_tokens (sep : Byte) (s cur : GoString) (hcur : sep ∉ cur) :
    ∀ tok ∈ splitLoop sep s cur, sep ∉ tok := by
  induction s generalizing cur with
  | nil =>
    intro tok htok
    simp only [splitLoop, List.mem_singleton] at htok
    rw [htok]
    simpa using hcur
  | cons c s ih =>
    intro tok htok
    by_cases hc : c = sep
    · simp only [splitLoop, if_pos hc, List.mem_cons] at htok
      rcases htok with h | h
      · rw [h]; simpa using hcur
      · exact ih [] (by simp) tok h
    · simp only [splitLoop, if_neg hc] at htok
      refine ih (c :: cur) ?_ tok htok
      intro hm
      rcases List.mem_cons.mp hm with h | h
      · exact hc h.symm
      · exact hcur h

theorem pathElems_plain (path : GoString) : ∀ e ∈ pathElems path, plainElem e := by
  intro e he
  unfold pathElems at he
  rw [List.mem_filter] at he
  obtain ⟨h1, h2⟩ := he
  have h3 := splitLoop_tokens 47 path [] (by simp) e h1
  simp only [decide_eq_true_eq] at h2
  exact ⟨h2.1, h3, h2.2⟩

theorem pathElems_append (a b : GoString) :
    pathElems (a ++ 47 :: b) = pathElems a ++ pathElems b := by
  unfold pathElems
  rw [Split_append_any, List.filter_append]

theorem pathElems_plainElem (c : GoString) (hc : plainElem c) : pathElems c = [c] := by
  unfold pathElems
  rw [Split_no_sep 47 c hc.2.1]
  simp [hc.1, hc.2.2]

theorem cleanStep_canon (rooted : Bool) (st : List GoString) (e : GoString)
    (hst : canon rooted st) (he : plainElem e) : canon rooted (cleanStep rooted st e) := by
  unfold cleanStep
  by_cases hdd : e = [46, 46]
  · rw [if_pos hdd]
    cases st with
    | nil =>
      cases rooted
      · exact ⟨he, fun _ => ⟨rfl, by simp⟩, trivial⟩
      · exact trivial
    | cons top below =>
      obtain ⟨h1, h2, h3⟩ := hst
      by_cases htop : top = [46, 46]
      · simp only [htop, if_true]
        cases rooted
        · refine ⟨he, fun _ => ⟨rfl, ?_⟩, ?_⟩
          · intro x hx
            rcases List.mem_cons.mp hx with h | h
            · exact h
            · exact (h2 htop).2 x h
          · rw [← htop]
            exact ⟨h1, h2, h3⟩
        · rw [← htop]
          exact ⟨h1, h2, h3⟩
      · simp only [htop, if_false]
        exact h3
  · rw [if_neg hdd]
    exact ⟨he, fun h => absurd h hdd, hst⟩

theorem foldl_cleanStep_canon (rooted : Bool) (es : List GoString) (st : List GoString)
    (hst : canon rooted st) (hes : ∀ e ∈ es, plainElem e) :
    canon rooted (es.foldl (cleanStep rooted) st) := by
  induction es generalizing st with
  | nil => exact hst
  | cons e es ih =>
    rw [List.foldl_cons]
    exact ih _ (cleanStep_canon rooted st e hst (hes e (List.mem_cons_self _ _)))
      (fun x hx => hes x (List.mem_cons_of_mem _ hx))

theorem cleanOut_canon (rooted : Bool) (path : GoString) : canon rooted (cleanOut rooted path) :=
  foldl_cleanStep_canon rooted _ [] trivial (pathElems_plain path)

/-- Reading a canonical stack again, bottom first, rebuilds it. -/
theorem foldl_cleanStep_reverse (rooted : Bool) (st : List GoString) (hst : canon rooted st) :
    st.reverse.foldl (cleanStep rooted) [] = st := by
  induction st with
  | nil => rfl
  | cons e below ih =>
    obtain ⟨h1, h2, h3⟩ := hst
    rw [List.reverse_cons, List.foldl_append, ih h3]
    simp only [List.foldl_cons, List.foldl_nil]
    unfold cleanStep
    by_cases hdd : e = [46, 46]
    · rw [if_pos hdd]
      obtain ⟨hr, hall⟩ := h2 hdd
      cases below with
      | nil => simp [hr]
      | cons top rest =>
        have htop : top = [46, 46] := hall top (List.mem_cons_self _ _)
        simp [htop, hr]
    · rw [if_neg hdd]

theorem canon_plain (rooted : Bool) (st : List GoString) (hst : canon rooted st) :
    ∀ e ∈ st, plainElem e := by
  induction st with
  | nil => simp
  | cons e below ih =>
    intro x hx
    rcases List.mem_cons.mp hx with h | h
    · rw [h]; exact hst.1
    · exact ih hst.2.2 x h

theorem Split_stringsJoin (l : List GoString) (hne : l ≠ []) (hl : ∀ e ∈ l, (47 : Byte) ∉ e) :
    Split (stringsJoin l [47]) 47 = l := by
  induction l with
  | nil => exact absurd rfl hne
  | cons e rest ih =>
    cases rest with
    | nil =>
      simp only [stringsJoin]
      exact Split_no_sep 47 e (hl e (List.mem_cons_self _ _))
    | cons e2 rest2 =>
      simp only [stringsJoin]
      rw [List.append_assoc, List.singleton_append,
        Split_append 47 _ _ (hl e (List.mem_cons_self _ _))]
      have := ih (List.cons_ne_nil _ _) (fun x hx => hl x (List.mem_cons_of_mem _ hx))
      simp only [stringsJoin] at this
      rw [this]

theorem filter_plain (l : List GoString) (hl : ∀ e ∈ l, plainElem e) :
    l.filter (fun e => decide (e ≠ [] ∧ e ≠ [46])) = l := by
  rw [List.filter_eq_self]
  intro e he
  have := hl e he
  simp [this.1, this.2.2]

/-- The path elements of a rendered stack are the stack. -/
theorem pathElems_render (rooted : Bool) (st : List GoString) (hst : canon rooted st) :
    pathElems (render rooted st) = st.reverse := by
  have hplain : ∀ e ∈ st.reverse, plainElem e := by
    intro e he
    exact canon_plain rooted st hst e (List.mem_reverse.mp he)
  have hsep : ∀ e ∈ st.reverse, (47 : Byte) ∉ e := fun e he => (hplain e he).2.1
  unfold render pathElems
  by_cases hnil : st = []
  · subst hnil
    cases rooted <;> decide
  · have hrev : st.reverse ≠ [] := by simpa using hnil
    cases rooted
    · simp only [Bool.false_eq_true, if_false, hnil]
      rw [Split_stringsJoin _ hrev hsep, filter_plain _ hplain]
    · simp only [if_true]
      have : (47 : Byte) :: stringsJoin st.reverse [47] = [] ++ 47 :: stringsJoin st.reverse [47] := rfl
      rw [this, Split_append 47 _ _ (by simp), Split_stringsJoin _ hrev hsep]
      rw [List.filter_cons]
      simp only [ne_eq, not_true_eq_false, false_and, decide_False, Bool.false_eq_true, if_false]
      exact filter_plain _ hplain

theorem stringsJoin_head (l : List GoString) (e : GoString) (rest : List GoString)
    (hl : l = e :: rest) (he : e ≠ []) : (stringsJoin l [47]).head? = e.head? := by
  subst hl
  cases e with
  | nil => exact absurd rfl he
  | cons c t =>
    cases rest with
    | nil => rfl
    | cons e2 rest2 => rfl

theorem render_ne_nil (rooted : Bool) (st : List GoString) (hst : canon rooted st) :
    render rooted st ≠ [] := by
  unfold render
  cases rooted
  · simp only [Bool.false_eq_true, if_false]
    split_ifs with hnil
    · simp
    · intro h
      have h2 := pathElems_render false st hst
      unfold render at h2
      simp only [Bool.false_eq_true, if_false, hnil] at h2
      rw [h] at h2
      have : pathElems [] = [] := by decide
      rw [this] at h2
      exact hnil (by simpa using h2.symm)
  · simp

theorem render_rooted (rooted : Bool) (st : List GoString) (hst : canon rooted st) :
    decide ((render rooted st).head? = some 47) = rooted := by
  unfold render
  cases rooted
  · simp only [Bool.false_eq_true, if_false]
    split_ifs with hnil
    · decide
    · have hrev : st.reverse ≠ [] := by simpa using hnil
      cases hr : st.reverse with
      | nil => exact absurd hr hrev
      | cons e rest =>
        have he : plainElem e :=
          canon_plain false st hst e (List.mem_reverse.mp (by rw [hr]; exact List.mem_cons_self _ _))
        rw [stringsJoin_head (e :: rest) e rest rfl he.1]
        cases e with
        | nil => exact absurd rfl he.1
        | cons c t =>
          have hc : c ≠ 47 := fun h => he.2.1 (by rw [h]; exact List.mem_cons_self _ _)
          simp [hc]
  · simp

theorem Clean_eq_render (path : GoString) (h : path ≠ []) :
    Clean path = render (decide (path.head? = some 47))
      (cleanOut (decide (path.head? = some 47)) path) := by
  unfold Clean render cleanOut
  rw [if_neg h]

/-- Cleaning a path again before a further element does not change the
result. -/
theorem Clean_Clean_append (y c : GoString) (hy : y ≠ []) :
    Clean (Clean y ++ 47 :: c) = Clean (y ++ 47 :: c) := by
  have hcan := cleanOut_canon (decide (y.head? = some 47)) y
  have hx : Clean y = render (decide (y.head? = some 47))
      (cleanOut (decide (y.head? = some 47)) y) := Clean_eq_render y hy
  have hxne : Clean y ≠ [] := by rw [hx]; exact render_ne_nil _ _ hcan
  have hxr : decide ((Clean y).head? = some 47) = decide (y.head? = some 47) := by
    rw [hx]; exact render_rooted _ _ hcan
  have hhead1 : (Clean y ++ 47 :: c).head? = (Clean y).head? := by
    cases h : Clean y with
    | nil => exact absurd h hxne
    | cons a b => rfl
  have hhead2 : (y ++ 47 :: c).head? = y.head? := by
    cases y with
    | nil => exact absurd rfl hy
    | cons a b => rfl
  rw [Clean_eq_render _ (by simp), Clean_eq_render (y ++ 47 :: c) (by simp), hhead1, hhead2, hxr]
  congr 1
  unfold cleanOut
  rw [pathElems_append, pathElems_append, List.foldl_append, List.foldl_append]
  congr 1
  rw [hx, pathElems_render _ _ hcan, foldl_cleanStep_reverse _ _ hcan]
  rfl

/-- Joining in two steps, as `main` does, is joining the three elements. -/
theorem Join_nested (a b c : GoString) : Join [Join [a, b], c] = Join [a, b, c] := by
  by_cases ha : a = []
  · subst ha
    by_cases hb : b = []
    · subst hb
      simp [Join]
    · have h1 : Join [[], b] = Clean b := by simp [Join, hb, stringsJoin]
      have h2 : Join [[], b, c] = Clean (b ++ 47 :: c) := by simp [Join, hb, stringsJoin]
      have hne : Clean b ≠ [] := by
        rw [Clean_eq_render b hb]
        exact render_ne_nil _ _ (cleanOut_canon _ _)
      rw [h1, h2]
      simp only [Join, hne, ne_eq, not_false_eq_true, if_true, stringsJoin]
      rw [List.append_assoc, List.singleton_append]
      exact Clean_Clean_append b c hb
  · have h1 : Join [a, b] = Clean (a ++ 47 :: b) := by simp [Join, ha, stringsJoin]
    have h2 : Join [a, b, c] = Clean ((a ++ 47 :: b) ++ 47 :: c) := by
      simp [Join, ha, stringsJoin]
    have hne : Clean (a ++ 47 :: b) ≠ [] := by
      rw [Clean_eq_render _ (by simp)]
      exact render_ne_nil _ _ (cleanOut_canon _ _)
    rw [h1, h2]
    simp only [Join, hne, ne_eq, not_false_eq_true, if_true, stringsJoin]
    rw [List.append_assoc, List.singleton_append]
    exact Clean_Clean_append _ c (by simp)

/-! ## Lemmas on the UTF-8 decoders -/

theorem byteAt_lt (s : GoString) (i : Nat) : byteAt s i < 256 := (s.getD i 0).isLt

theorem first_ascii (b : Nat) (h : b < 0x80) : first b = 0xF0 := by
  unfold first; rw [if_pos h]

theorem first_invalid (b : Nat) (h : (0x80 ≤ b ∧ b < 0xC2) ∨ 0xF5 ≤ b) : first b = 0xF1 := by
  unfold first; split_ifs <;> first | rfl | omega

theorem first_two (b : Nat) (h : 0xC2 ≤ b ∧ b ≤ 0xDF) : first b = 0x02 := by
  unfold first; split_ifs <;> first | rfl | omega

theorem first_three (b : Nat) (h : 0xE0 ≤ b ∧ b ≤ 0xEF) :
    first b = if b = 0xE0 then 0x13 else if b = 0xED then 0x23 else 0x03 := by
  unfold first; split_ifs <;> first | rfl | omega

theorem first_four (b : Nat) (h : 0xF0 ≤ b ∧ b ≤ 0xF4) :
    first b = if b = 0xF0 then 0x34 else if b = 0xF4 then 0x44 else 0x04 := by
  unfold first; split_ifs <;> first | rfl | omega

theorem and_3F (b : Nat) : b &&& 0x3F = b % 64 := Nat.and_pow_two_sub_one_eq_mod b 6
theorem and_1F (b : Nat) : b &&& 0x1F = b % 32 := Nat.and_pow_two_sub_one_eq_mod b 5
theorem and_0F (b : Nat) : b &&& 0x0F = b % 16 := Nat.and_pow_two_sub_one_eq_mod b 4
theorem and_07 (b : Nat) : b &&& 0x07 = b % 8 := Nat.and_pow_two_sub_one_eq_mod b 3

theorem shl_or (a b i : Nat) (hb : b < 2 ^ i) : (a <<< i) ||| b = a * 2 ^ i + b := by
  rw [Nat.shiftLeft_eq, Nat.mul_comm, ← Nat.mul_add_lt_is_or hb]

theorem rune_two (b0 b1 : Nat) :
    ((b0 &&& 0x1F) <<< 6) ||| (b1 &&& 0x3F) = b0 % 32 * 64 + b1 % 64 := by
  rw [and_1F, and_3F, shl_or _ _ 6 (by norm_num; omega)]
  norm_num

theorem rune_three (b0 b1 b2 : Nat) :
    ((b0 &&& 0x0F) <<< 12) ||| ((b1 &&& 0x3F) <<< 6) ||| (b2 &&& 0x3F)
      = b0 % 16 * 4096 + b1 % 64 * 64 + b2 % 64 := by
  rw [and_0F, and_3F, and_3F]
  have h1 : (b1 % 64) <<< 6 = b1 % 64 * 64 := Nat.shiftLeft_eq _ _
  rw [h1, shl_or _ _ 12 (by norm_num; omega)]
  have h2 : b0 % 16 * 2 ^ 12 + b1 % 64 * 64 = (b0 % 16 * 64 + b1 % 64) <<< 6 := by
    rw [Nat.shiftLeft_eq]; norm_num; omega
  rw [h2, shl_or _ _ 6 (by norm_num; omega)]
  norm_num; omega

theorem rune_four (b0 b1 b2 b3 : Nat) :
    ((b0 &&& 0x07) <<< 18) ||| ((b1 &&& 0x3F) <<< 12) ||| ((b2 &&& 0x3F) <<< 6) ||| (b3 &&& 0x3F)
      = b0 % 8 * 262144 + b1 % 64 * 4096 + b2 % 64 * 64 + b3 % 64 := by
  rw [and_07, and_3F, and_3F, and_3F]
  have h1 : (b1 % 64) <<< 12 = b1 % 64 * 4096 := Nat.shiftLeft_eq _ _
  have h1b : (b2 % 64) <<< 6 = b2 % 64 * 64 := Nat.shiftLeft_eq _ _
  rw [h1, h1b, shl_or _ _ 18 (by norm_num; omega)]
  have h2 : b0 % 8 * 2 ^ 18 + b1 % 64 * 4096 = (b0 % 8 * 64 + b1 % 64) <<< 12 := by
    rw [Nat.shiftLeft_eq]; norm_num; omega
  rw [h2, shl_or _ _ 12 (by norm_num; omega)]
  have h3 : (b0 % 8 * 64 + b1 % 64) * 2 ^ 12 + b2 % 64 * 64
      = ((b0 % 8 * 64 + b1 % 64) * 64 + b2 % 64) <<< 6 := by
    rw [Nat.shiftLeft_eq]; norm_num; omega
  rw [h3, shl_or _ _ 6 (by norm_num; omega)]
  norm_num; omega

theorem decode_nil : DecodeRuneInString [] = (RuneError, 0) := rfl

theorem decode_ascii (s : GoString) (hs : s ≠ []) (h : byteAt s 0 < 0x80) :
    DecodeRuneInString s = (byteAt s 0, 1) := by
  have hn : ¬ s.length < 1 := by
    cases s with
    | nil => exact absurd rfl hs
    | cons c t => simp
  unfold DecodeRuneInString
  simp only [hn, if_false, first_ascii _ h]
  rfl

theorem decode_invalid (s : GoString) (hs : s ≠ [])
    (h : (0x80 ≤ byteAt s 0 ∧ byteAt s 0 < 0xC2) ∨ 0xF5 ≤ byteAt s 0) :
    DecodeRuneInString s = (RuneError, 1) := by
  have hn : ¬ s.length < 1 := by
    cases s with
    | nil => exact absurd rfl hs
    | cons c t => simp
  unfold DecodeRuneInString
  simp only [hn, if_false, first_invalid _ h]
  rfl

theorem decode_two (s : GoString) (h : 0xC2 ≤ byteAt s 0 ∧ byteAt s 0 ≤ 0xDF) :
    DecodeRuneInString s =
      if 2 ≤ s.length ∧ 0x80 ≤ byteAt s 1 ∧ byteAt s 1 ≤ 0xBF then
        (byteAt s 0 % 32 * 64 + byteAt s 1 % 64, 2)
      else (RuneError, 1) := by
  have hs : ¬ s.length < 1 := by
    cases s with
    | nil => simp [byteAt] at h
    | cons c t => simp
  unfold DecodeRuneInString
  simp only [hs, if_false, first_two _ h]
  have e1 : ¬ ((0x02 : Nat) ≥ 0xF0) := by decide
  have e2 : (0x02 : Nat) &&& 7 = 2 := by decide
  have e3 : acceptRanges ((0x02 : Nat) >>> 4) = (0x80, 0xBF) := by decide
  simp only [e1, e2, e3, if_false, rune_two, le_refl, if_true]
  by_cases hl : s.length < 2
  · rw [if_pos hl, if_neg (by omega)]
  · rw [if_neg hl]
    by_cases h1 : byteAt s 1 < 0x80 ∨ 0xBF < byteAt s 1
    · rw [if_pos h1, if_neg (by omega)]
    · rw [if_neg h1, if_pos (by omega)]

theorem decode_three_aux (s : GoString) (h : 0xE0 ≤ byteAt s 0 ∧ byteAt s 0 ≤ 0xEF) :
    DecodeRuneInString s =
      if 3 ≤ s.length ∧ (if byteAt s 0 = 0xE0 then 0xA0 else 0x80) ≤ byteAt s 1
          ∧ byteAt s 1 ≤ (if byteAt s 0 = 0xED then 0x9F else 0xBF)
          ∧ 0x80 ≤ byteAt s 2 ∧ byteAt s 2 ≤ 0xBF then
        (byteAt s 0 % 16 * 4096 + byteAt s 1 % 64 * 64 + byteAt s 2 % 64, 3)
      else (RuneError, 1) := by
  have hs : ¬ s.length < 1 := by
    cases s with
    | nil => simp [byteAt] at h
    | cons c t => simp
  unfold DecodeRuneInString
  simp only [hs, if_false, first_three _ h]
  have a1 : ¬ ((0x13 : Nat) ≥ 0xF0) := by decide
  have a2 : (0x13 : Nat) &&& 7 = 3 := by decide
  have a3 : acceptRanges ((0x13 : Nat) >>> 4) = (0xA0, 0xBF) := by decide
  have b1 : ¬ ((0x23 : Nat) ≥ 0xF0) := by decide
  have b2 : (0x23 : Nat) &&& 7 = 3 := by decide
  have b3 : acceptRanges ((0x23 : Nat) >>> 4) = (0x80, 0x9F) := by decide
  have c1 : ¬ ((0x03 : Nat) ≥ 0xF0) := by decide
  have c2 : (0x03 : Nat) &&& 7 = 3 := by decide
  have c3 : acceptRanges ((0x03 : Nat) >>> 4) = (0x80, 0xBF) := by decide
  have d1 : ¬ ((3 : Nat) ≤ 2) := by decide
  by_cases hE0 : byteAt s 0 = 0xE0
  · simp only [hE0, if_true, a1, a2, a3, d1, if_false, rune_three, le_refl]
    have hED : ¬ ((0xE0 : Nat) = 0xED) := by decide
    simp only [hED, if_false]
    by_cases hl : s.length < 3
    · rw [if_pos hl, if_neg (by omega)]
    · rw [if_neg hl]
      by_cases h1 : byteAt s 1 < 0xA0 ∨ 0xBF < byteAt s 1
      · rw [if_pos h1, if_neg (by omega)]
      · rw [if_neg h1]
        by_cases h2 : byteAt s 2 < 0x80 ∨ 0xBF < byteAt s 2
        · rw [if_pos h2, if_neg (by omega)]
        · rw [if_neg h2, if_pos (by omega)]
  · by_cases hED : byteAt s 0 = 0xED
    · have hE0b : ¬ ((0xED : Nat) = 0xE0) := by decide
      simp only [hED, hE0b, if_true, b1, b2, b3, d1, if_false, rune_three, le_refl]
      by_cases hl : s.length < 3
      · rw [if_pos hl, if_neg (by omega)]
      · rw [if_neg hl]
        by_cases h1 : byteAt s 1 < 0x80 ∨ 0x9F < byteAt s 1
        · rw [if_pos h1, if_neg (by omega)]
        · rw [if_neg h1]
          by_cases h2 : byteAt s 2 < 0x80 ∨ 0xBF < byteAt s 2
          · rw [if_pos h2, if_neg (by omega)]
          · rw [if_neg h2, if_pos (by omega)]
    · simp only [hE0, hED, if_false, c1, c2, c3, d1, rune_three, le_refl, if_true]
      by_cases hl : s.length < 3
      · rw [if_pos hl, if_neg (by omega)]
      · rw [if_neg hl]
        by_cases h1 : byteAt s 1 < 0x80 ∨ 0xBF < byteAt s 1
        · rw [if_pos h1, if_neg (by omega)]
        · rw [if_neg h1]
          by_cases h2 : byteAt s 2 < 0x80 ∨ 0xBF < byteAt s 2
          · rw [if_pos h2, if_neg (by omega)]
          · rw [if_neg h2, if_pos (by omega)]


theorem secondLo_ge (b0 : Nat) : 0x80 ≤ secondLo b0 := by
  unfold secondLo; split_ifs <;> omega

theorem secondHi_le (b0 : Nat) : secondHi b0 ≤ 0xBF := by
  unfold secondHi; split_ifs <;> omega

theorem decode_three (s : GoString) (h : 0xE0 ≤ byteAt s 0 ∧ byteAt s 0 ≤ 0xEF) :
    DecodeRuneInString s =
      if 3 ≤ s.length ∧ secondLo (byteAt s 0) ≤ byteAt s 1
          ∧ byteAt s 1 ≤ secondHi (byteAt s 0)
          ∧ 0x80 ≤ byteAt s 2 ∧ byteAt s 2 ≤ 0xBF then
        (byteAt s 0 % 16 * 4096 + byteAt s 1 % 64 * 64 + byteAt s 2 % 64, 3)
      else (RuneError, 1) := by
  rw [decode_three_aux s h]
  have h1 : ¬ byteAt s 0 = 0xF0 := by omega
  have h2 : ¬ byteAt s 0 = 0xF4 := by omega
  unfold secondLo secondHi
  simp only [h1, h2, if_false]

theorem wsClass_of_mem : ∀ w ∈ whiteSpace, wsClass w := by decide

theorem mem_of_wsClass_one : ∀ c : Byte, wsClass [c] → [c] ∈ whiteSpace := by decide

theorem mem_of_wsClass_two : ∀ c1 : Byte, wsClass [0xC2, c1] → [0xC2, c1] ∈ whiteSpace := by
  decide

theorem mem_of_wsClass_E1 : ∀ c2 : Byte, wsClass [0xE1, 0x9A, c2] → [0xE1, 0x9A, c2] ∈ whiteSpace := by
  decide

theorem mem_of_wsClass_E2_80 :
    ∀ c2 : Byte, wsClass [0xE2, 0x80, c2] → [0xE2, 0x80, c2] ∈ whiteSpace := by
  decide

theorem mem_of_wsClass_E2_81 :
    ∀ c2 : Byte, wsClass [0xE2, 0x81, c2] → [0xE2, 0x81, c2] ∈ whiteSpace := by
  decide

theorem mem_of_wsClass_E3 : ∀ c2 : Byte, wsClass [0xE3, 0x80, c2] → [0xE3, 0x80, c2] ∈ whiteSpace := by
  decide

theorem byte_eq (c : Byte) (n : Nat) (hn : n < 256) (h : c.val = n) : c = ⟨n, hn⟩ :=
  Fin.ext h

theorem mem_of_wsClass (w : GoString) (h : wsClass w) : w ∈ whiteSpace := by
  match w, h with
  | [c], h => exact mem_of_wsClass_one c h
  | [c0, c1], h =>
    have h0 : c0 = 0xC2 := Fin.ext h.1
    subst h0
    exact mem_of_wsClass_two c1 h
  | [c0, c1, c2], h =>
    have hh := h
    unfold wsClass at hh
    simp only at hh
    rcases hh with ⟨a, b, _⟩ | ⟨a, b, _⟩ | ⟨a, b, _⟩ | ⟨a, b, _⟩
    · have h0 : c0 = 0xE1 := Fin.ext a
      have h1 : c1 = 0x9A := Fin.ext b
      subst h0 h1
      exact mem_of_wsClass_E1 c2 h
    · have h0 : c0 = 0xE2 := Fin.ext a
      have h1 : c1 = 0x80 := Fin.ext b
      subst h0 h1
      exact mem_of_wsClass_E2_80 c2 h
    · have h0 : c0 = 0xE2 := Fin.ext a
      have h1 : c1 = 0x81 := Fin.ext b
      subst h0 h1
      exact mem_of_wsClass_E2_81 c2 h
    · have h0 : c0 = 0xE3 := Fin.ext a
      have h1 : c1 = 0x80 := Fin.ext b
      subst h0 h1
      exact mem_of_wsClass_E3 c2 h

theorem mem_whiteSpace_iff (w : GoString) : w ∈ whiteSpace ↔ wsClass w :=
  ⟨wsClass_of_mem w, mem_of_wsClass w⟩

theorem decode_four_aux (s : GoString) (h : 0xF0 ≤ byteAt s 0 ∧ byteAt s 0 ≤ 0xF4) :
    DecodeRuneInString s =
      if 4 ≤ s.length ∧ (if byteAt s 0 = 0xF0 then 0x90 else 0x80) ≤ byteAt s 1
          ∧ byteAt s 1 ≤ (if byteAt s 0 = 0xF4 then 0x8F else 0xBF)
          ∧ 0x80 ≤ byteAt s 2 ∧ byteAt s 2 ≤ 0xBF ∧ 0x80 ≤ byteAt s 3 ∧ byteAt s 3 ≤ 0xBF then
        (byteAt s 0 % 8 * 262144 + byteAt s 1 % 64 * 4096 + byteAt s 2 % 64 * 64
          + byteAt s 3 % 64, 4)
      else (RuneError, 1) := by
  have hs : ¬ s.length < 1 := by
    cases s with
    | nil => simp [byteAt] at h
    | cons c t => simp
  unfold DecodeRuneInString
  simp only [hs, if_false, first_four _ h]
  have a1 : ¬ ((0x34 : Nat) ≥ 0xF0) := by decide
  have a2 : (0x34 : Nat) &&& 7 = 4 := by decide
  have a3 : acceptRanges ((0x34 : Nat) >>> 4) = (0x90, 0xBF) := by decide
  have b1 : ¬ ((0x44 : Nat) ≥ 0xF0) := by decide
  have b2 : (0x44 : Nat) &&& 7 = 4 := by decide
  have b3 : acceptRanges ((0x44 : Nat) >>> 4) = (0x80, 0x8F) := by decide
  have c1 : ¬ ((0x04 : Nat) ≥ 0xF0) := by decide
  have c2 : (0x04 : Nat) &&& 7 = 4 := by decide
  have c3 : acceptRanges ((0x04 : Nat) >>> 4) = (0x80, 0xBF) := by decide
  have d1 : ¬ ((4 : Nat) ≤ 2) := by decide
  have d2 : ¬ ((4 : Nat) ≤ 3) := by decide
  by_cases hF0 : byteAt s 0 = 0xF0
  · have hF4 : ¬ ((0xF0 : Nat) = 0xF4) := by decide
    simp only [hF0, hF4, if_true, a1, a2, a3, d1, d2, if_false, rune_four]
    by_cases hl : s.length < 4
    · rw [if_pos hl, if_neg (by omega)]
    · rw [if_neg hl]
      by_cases h1 : byteAt s 1 < 0x90 ∨ 0xBF < byteAt s 1
      · rw [if_pos h1, if_neg (by omega)]
      · rw [if_neg h1]
        by_cases h2 : byteAt s 2 < 0x80 ∨ 0xBF < byteAt s 2
        · rw [if_pos h2, if_neg (by omega)]
        · rw [if_neg h2]
          by_cases h3 : byteAt s 3 < 0x80 ∨ 0xBF < byteAt s 3
          · rw [if_pos h3, if_neg (by omega)]
          · rw [if_neg h3, if_pos (by omega)]
  · by_cases hF4 : byteAt s 0 = 0xF4
    · have hF0b : ¬ ((0xF4 : Nat) = 0xF0) := by decide
      simp only [hF4, hF0b, if_true, b1, b2, b3, d1, d2, if_false, rune_four]
      by_cases hl : s.length < 4
      · rw [if_pos hl, if_neg (by omega)]
      · rw [if_neg hl]
        by_cases h1 : byteAt s 1 < 0x80 ∨ 0x8F < byteAt s 1
        · rw [if_pos h1, if_neg (by omega)]
        · rw [if_neg h1]
          by_cases h2 : byteAt s 2 < 0x80 ∨ 0xBF < byteAt s 2
          · rw [if_pos h2, if_neg (by omega)]
          · rw [if_neg h2]
            by_cases h3 : byteAt s 3 < 0x80 ∨ 0xBF < byteAt s 3
            · rw [if_pos h3, if_neg (by omega)]
            · rw [if_neg h3, if_pos (by omega)]
    · simp only [hF0, hF4, if_false, c1, c2, c3, d1, d2, rune_four]
      by_cases hl : s.length < 4
      · rw [if_pos hl, if_neg (by omega)]
      · rw [if_neg hl]
        by_cases h1 : byteAt s 1 < 0x80 ∨ 0xBF < byteAt s 1
        · rw [if_pos h1, if_neg (by omega)]
        · rw [if_neg h1]
          by_cases h2 : byteAt s 2 < 0x80 ∨ 0xBF < byteAt s 2
          · rw [if_pos h2, if_neg (by omega)]
          · rw [if_neg h2]
            by_cases h3 : byteAt s 3 < 0x80 ∨ 0xBF < byteAt s 3
            · rw [if_pos h3, if_neg (by omega)]
            · rw [if_neg h3, if_pos (by omega)]

theorem decode_four (s : GoString) (h : 0xF0 ≤ byteAt s 0 ∧ byteAt s 0 ≤ 0xF4) :
    DecodeRuneInString s =
      if 4 ≤ s.length ∧ secondLo (byteAt s 0) ≤ byteAt s 1
          ∧ byteAt s 1 ≤ secondHi (byteAt s 0)
          ∧ 0x80 ≤ byteAt s 2 ∧ byteAt s 2 ≤ 0xBF ∧ 0x80 ≤ byteAt s 3 ∧ byteAt s 3 ≤ 0xBF then
        (byteAt s 0 % 8 * 262144 + byteAt s 1 % 64 * 4096 + byteAt s 2 % 64 * 64
          + byteAt s 3 % 64, 4)
      else (RuneError, 1) := by
  rw [decode_four_aux s h]
  have h1 : ¬ byteAt s 0 = 0xE0 := by omega
  have h2 : ¬ byteAt s 0 = 0xED := by omega
  unfold secondLo secondHi
  simp only [h1, h2, if_false]

theorem IsSpace_iff (r : Nat) :
    IsSpace r = true ↔
      (r = 0x09 ∨ r = 0x0A ∨ r = 0x0B ∨ r = 0x0C ∨ r = 0x0D ∨ r = 0x20 ∨ r = 0x85 ∨ r = 0xA0 ∨
        r = 0x1680 ∨ (0x2000 ≤ r ∧ r ≤ 0x200A) ∨ r = 0x2028 ∨ r = 0x2029 ∨ r = 0x202F ∨
        r = 0x205F ∨ r = 0x3000) := by
  unfold IsSpace
  split_ifs with h
  · simp only [decide_eq_true_eq]
    omega
  · simp only [decide_eq_true_eq]
    omega

theorem IsSpace_RuneError : IsSpace RuneError = false := by decide

/-- The five classes of first bytes. -/
theorem byte_classes (b : Nat) (h : b < 256) :
    b < 0x80 ∨ ((0x80 ≤ b ∧ b < 0xC2) ∨ 0xF5 ≤ b) ∨ (0xC2 ≤ b ∧ b ≤ 0xDF) ∨
      (0xE0 ≤ b ∧ b ≤ 0xEF) ∨ (0xF0 ≤ b ∧ b ≤ 0xF4) := by
  omega

theorem decode_size (s : GoString) (hs : s ≠ []) :
    1 ≤ (DecodeRuneInString s).2 ∧ (DecodeRuneInString s).2 ≤ s.length := by
  have hl : 1 ≤ s.length := by
    cases s with
    | nil => exact absurd rfl hs
    | cons c t => simp
  rcases byte_classes _ (byteAt_lt s 0) with h | h | h | h | h
  · rw [decode_ascii s hs h]; exact ⟨le_refl _, hl⟩
  · rw [decode_invalid s hs h]; exact ⟨le_refl _, hl⟩
  · rw [decode_two s h]
    split_ifs with hc
    · exact ⟨by norm_num, hc.1⟩
    · exact ⟨le_refl _, hl⟩
  · rw [decode_three s h]
    split_ifs with hc
    · exact ⟨by norm_num, hc.1⟩
    · exact ⟨le_refl _, hl⟩
  · rw [decode_four s h]
    split_ifs with hc
    · exact ⟨by norm_num, hc.1⟩
    · exact ⟨le_refl _, hl⟩

/-- A decoded rune of width one is an ASCII byte or the error rune. -/
theorem decode_size_one (s : GoString) (hs : s ≠ []) (h1 : (DecodeRuneInString s).2 = 1) :
    (DecodeRuneInString s).1 = RuneError ∨
      (byteAt s 0 < 0x80 ∧ (DecodeRuneInString s).1 = byteAt s 0) := by
  rcases byte_classes _ (byteAt_lt s 0) with h | h | h | h | h
  · rw [decode_ascii s hs h]; exact Or.inr ⟨h, rfl⟩
  · rw [decode_invalid s hs h]; exact Or.inl rfl
  · rw [decode_two s h] at h1 ⊢
    split_ifs at h1 ⊢ with hc
    · simp at h1
    · exact Or.inl rfl
  · rw [decode_three s h] at h1 ⊢
    split_ifs at h1 ⊢ with hc
    · simp at h1
    · exact Or.inl rfl
  · rw [decode_four s h] at h1 ⊢
    split_ifs at h1 ⊢ with hc
    · simp at h1
    · exact Or.inl rfl

/-- A lead byte that is not followed by a continuation byte decodes to the
error rune, of width one. -/
theorem decode_no_continuation (s : GoString) (hs : s ≠ []) (h0 : 0x80 ≤ byteAt s 0)
    (h1 : s.length = 1 ∨ byteAt s 1 < 0x80 ∨ 0xBF < byteAt s 1) :
    DecodeRuneInString s = (RuneError, 1) := by
  rcases byte_classes _ (byteAt_lt s 0) with h | h | h | h | h
  · omega
  · exact decode_invalid s hs h
  · rw [decode_two s h, if_neg (by omega)]
  · have := secondLo_ge (byteAt s 0)
    have := secondHi_le (byteAt s 0)
    rw [decode_three s h, if_neg (by omega)]
  · have := secondLo_ge (byteAt s 0)
    have := secondHi_le (byteAt s 0)
    rw [decode_four s h, if_neg (by omega)]

theorem byteAt_append_left (a b : GoString) (i : Nat) (h : i < a.length) :
    byteAt (a ++ b) i = byteAt a i := by
  unfold byteAt
  rw [List.getD_eq_getElem?_getD, List.getD_eq_getElem?_getD, List.getElem?_append_left h]

/-- A rune decoded from more than one byte does not depend on what follows
it. -/
theorem decode_append (a b : GoString) (h2 : 2 ≤ (DecodeRuneInString a).2) :
    DecodeRuneInString (a ++ b) = DecodeRuneInString a := by
  have ha : a ≠ [] := by
    intro h
    rw [h, decode_nil] at h2
    simp at h2
  have hl : 1 ≤ a.length := by
    cases a with
    | nil => exact absurd rfl ha
    | cons c t => simp
  have hlen : (a ++ b).length = a.length + b.length := List.length_append _ _
  have e0 : byteAt (a ++ b) 0 = byteAt a 0 := byteAt_append_left a b 0 (by omega)
  rcases byte_classes _ (byteAt_lt a 0) with h | h | h | h | h
  · rw [decode_ascii a ha h] at h2; simp at h2
  · rw [decode_invalid a ha h] at h2; simp at h2
  · rw [decode_two a h] at h2 ⊢
    split_ifs at h2 ⊢ with hc
    · have e1 := byteAt_append_left a b 1 (by omega)
      rw [decode_two (a ++ b) (by rw [e0]; exact h), e0, e1, if_pos (by omega)]
    · simp at h2
  · rw [decode_three a h] at h2 ⊢
    split_ifs at h2 ⊢ with hc
    · have e1 := byteAt_append_left a b 1 (by omega)
      have e2 := byteAt_append_left a b 2 (by omega)
      rw [decode_three (a ++ b) (by rw [e0]; exact h), e0, e1, e2,
        if_pos ⟨by omega, hc.2⟩]
    · simp at h2
  · rw [decode_four a h] at h2 ⊢
    split_ifs at h2 ⊢ with hc
    · have e1 := byteAt_append_left a b 1 (by omega)
      have e2 := byteAt_append_left a b 2 (by omega)
      have e3 := byteAt_append_left a b 3 (by omega)
      rw [decode_four (a ++ b) (by rw [e0]; exact h), e0, e1, e2, e3,
        if_pos ⟨by omega, hc.2⟩]
    · simp at h2

/-- A white-space character at the front of a string decodes to a space, of
the width of the character. -/
theorem decode_of_lead (w rest : GoString) (hw : w ∈ whiteSpace) :
    IsSpace (DecodeRuneInString (w ++ rest)).1 = true ∧
      (DecodeRuneInString (w ++ rest)).2 = w.length := by
  have hc := wsClass_of_mem w hw
  match w, hc with
  | [c], hc =>
    unfold wsClass at hc
    simp only at hc
    have hb : byteAt ([c] ++ rest) 0 = c.val := rfl
    rw [decode_ascii _ (by simp) (by rw [hb]; omega), hb]
    refine ⟨?_, rfl⟩
    rw [IsSpace_iff]
    omega
  | [c0, c1], hc =>
    unfold wsClass at hc
    simp only at hc
    have hb0 : byteAt ([c0, c1] ++ rest) 0 = c0.val := rfl
    have hb1 : byteAt ([c0, c1] ++ rest) 1 = c1.val := rfl
    have hl : 2 ≤ ([c0, c1] ++ rest).length := by simp
    rw [decode_two _ (by rw [hb0]; omega), if_pos ⟨hl, by rw [hb1]; omega⟩, hb0, hb1]
    refine ⟨?_, rfl⟩
    rw [IsSpace_iff]
    omega
  | [c0, c1, c2], hc =>
    unfold wsClass at hc
    simp only at hc
    have hb0 : byteAt ([c0, c1, c2] ++ rest) 0 = c0.val := rfl
    have hb1 : byteAt ([c0, c1, c2] ++ rest) 1 = c1.val := rfl
    have hb2 : byteAt ([c0, c1, c2] ++ rest) 2 = c2.val := rfl
    have hl : 3 ≤ ([c0, c1, c2] ++ rest).length := by simp
    have hlo : secondLo c0.val = 0x80 := by
      unfold secondLo
      rw [if_neg (by omega), if_neg (by omega)]
    have hhi : secondHi c0.val = 0xBF := by
      unfold secondHi
      rw [if_neg (by omega), if_neg (by omega)]
    rw [decode_three _ (by rw [hb0]; omega),
      if_pos ⟨hl, by rw [hb0, hb1, hb2, hlo, hhi]; omega⟩, hb0, hb1, hb2]
    refine ⟨?_, rfl⟩
    rw [IsSpace_iff]
    omega

theorem exists_cons_two (s : GoString) (h : 2 ≤ s.length) :
    ∃ c0 c1 rest, s = c0 :: c1 :: rest := by
  match s, h with
  | c0 :: c1 :: rest, _ => exact ⟨c0, c1, rest, rfl⟩
  | [_], h => simp at h
  | [], h => simp at h

theorem exists_cons_three (s : GoString) (h : 3 ≤ s.length) :
    ∃ c0 c1 c2 rest, s = c0 :: c1 :: c2 :: rest := by
  match s, h with
  | c0 :: c1 :: c2 :: rest, _ => exact ⟨c0, c1, c2, rest, rfl⟩
  | [_, _], h => simp at h
  | [_], h => simp at h
  | [], h => simp at h

theorem space_three_arith (a b c : Nat) (ha : a < 16) (hb : b < 64) (hc : c < 64)
    (hE0 : a = 0 → 32 ≤ b) (h : IsSpace (a * 4096 + b * 64 + c) = true) :
    (a = 1 ∧ b = 0x1A ∧ c = 0) ∨
    (a = 2 ∧ b = 0 ∧ (c ≤ 0x0A ∨ c = 0x28 ∨ c = 0x29 ∨ c = 0x2F)) ∨
    (a = 2 ∧ b = 1 ∧ c = 0x1F) ∨ (a = 3 ∧ b = 0 ∧ c = 0) := by
  rw [IsSpace_iff] at h
  have hbig : 2048 ≤ a * 4096 + b * 64 + c := by
    by_cases ha0 : a = 0
    · have := hE0 ha0
      omega
    · omega
  have key : ∀ r, a * 4096 + b * 64 + c = r → a = r / 4096 ∧ b = r / 64 % 64 ∧ c = r % 64 := by
    intro r hr
    omega
  rcases h with h | h | h | h | h | h | h | h | h | h | h | h | h | h | h
  · exfalso; omega
  · exfalso; omega
  · exfalso; omega
  · exfalso; omega
  · exfalso; omega
  · exfalso; omega
  · exfalso; omega
  · exfalso; omega
  · obtain ⟨h1, h2, h3⟩ := key _ h
    exact Or.inl ⟨h1, h2, h3⟩
  · have h1 : a = 2 := by omega
    have h2 : b = 0 := by omega
    have h3 : c ≤ 0x0A := by omega
    exact Or.inr (Or.inl ⟨h1, h2, Or.inl h3⟩)
  · obtain ⟨h1, h2, h3⟩ := key _ h
    exact Or.inr (Or.inl ⟨h1, h2, Or.inr (Or.inl h3)⟩)
  · obtain ⟨h1, h2, h3⟩ := key _ h
    exact Or.inr (Or.inl ⟨h1, h2, Or.inr (Or.inr (Or.inl h3))⟩)
  · obtain ⟨h1, h2, h3⟩ := key _ h
    exact Or.inr (Or.inl ⟨h1, h2, Or.inr (Or.inr (Or.inr h3))⟩)
  · obtain ⟨h1, h2, h3⟩ := key _ h
    exact Or.inr (Or.inr (Or.inl ⟨h1, h2, h3⟩))
  · obtain ⟨h1, h2, h3⟩ := key _ h
    exact Or.inr (Or.inr (Or.inr ⟨h1, h2, h3⟩))

theorem space_two_arith (a b : Nat) (ha : 2 ≤ a) (ha2 : a < 32) (hb : b < 64)
    (h : IsSpace (a * 64 + b) = true) : a = 2 ∧ (b = 0x05 ∨ b = 0x20) := by
  rw [IsSpace_iff] at h
  rcases h with h | h | h | h | h | h | h | h | h | h | h | h | h | h | h <;> omega

/-- A string whose first rune decodes to a space starts with a white-space
character, of the decoded width. -/
theorem decode_space (s : GoString) (hs : s ≠ [])
    (h : IsSpace (DecodeRuneInString s).1 = true) :
    ∃ w rest, w ∈ whiteSpace ∧ s = w ++ rest ∧ (DecodeRuneInString s).2 = w.length := by
  rcases byte_classes _ (byteAt_lt s 0) with hb | hb | hb | hb | hb
  · rw [decode_ascii s hs hb] at h ⊢
    cases s with
    | nil => exact absurd rfl hs
    | cons c rest =>
      have hb0 : byteAt (c :: rest) 0 = c.val := rfl
      rw [hb0] at h hb
      rw [IsSpace_iff] at h
      refine ⟨[c], rest, mem_of_wsClass [c] ?_, rfl, rfl⟩
      unfold wsClass
      simp only
      omega
  · rw [decode_invalid s hs hb, IsSpace_RuneError] at h
    exact absurd h (by decide)
  · rw [decode_two s hb] at h ⊢
    by_cases hc : 2 ≤ s.length ∧ 0x80 ≤ byteAt s 1 ∧ byteAt s 1 ≤ 0xBF
    · rw [if_pos hc] at h ⊢
      obtain ⟨c0, c1, rest, rfl⟩ := exists_cons_two s hc.1
      have hb0 : byteAt (c0 :: c1 :: rest) 0 = c0.val := rfl
      have hb1 : byteAt (c0 :: c1 :: rest) 1 = c1.val := rfl
      simp only [hb0, hb1] at h hc hb
      have h2 := space_two_arith (c0.val % 32) (c1.val % 64) (by omega) (by omega) (by omega) h
      refine ⟨[c0, c1], rest, mem_of_wsClass [c0, c1] ?_, rfl, rfl⟩
      unfold wsClass
      simp only
      omega
    · rw [if_neg hc, IsSpace_RuneError] at h
      exact absurd h (by decide)
  · rw [decode_three s hb] at h ⊢
    by_cases hc : 3 ≤ s.length ∧ secondLo (byteAt s 0) ≤ byteAt s 1
        ∧ byteAt s 1 ≤ secondHi (byteAt s 0) ∧ 0x80 ≤ byteAt s 2 ∧ byteAt s 2 ≤ 0xBF
    · rw [if_pos hc] at h ⊢
      obtain ⟨c0, c1, c2, rest, rfl⟩ := exists_cons_three s hc.1
      have hb0 : byteAt (c0 :: c1 :: c2 :: rest) 0 = c0.val := rfl
      have hb1 : byteAt (c0 :: c1 :: c2 :: rest) 1 = c1.val := rfl
      have hb2 : byteAt (c0 :: c1 :: c2 :: rest) 2 = c2.val := rfl
      simp only [hb0, hb1, hb2] at h hc hb
      have hlo := secondLo_ge c0.val
      have hhi := secondHi_le c0.val
      have hE0 : c0.val = 0xE0 → secondLo c0.val = 0xA0 := by
        intro e; rw [e]; rfl
      have h3 := space_three_arith (c0.val % 16) (c1.val % 64) (c2.val % 64) (by omega)
        (by omega) (by omega)
        (by
          intro e
          have := hE0 (by omega)
          omega) h
      refine ⟨[c0, c1, c2], rest, mem_of_wsClass [c0, c1, c2] ?_, rfl, rfl⟩
      unfold wsClass
      simp only
      omega
    · rw [if_neg hc, IsSpace_RuneError] at h
      exact absurd h (by decide)
  · rw [decode_four s hb] at h
    by_cases hc : 4 ≤ s.length ∧ secondLo (byteAt s 0) ≤ byteAt s 1
        ∧ byteAt s 1 ≤ secondHi (byteAt s 0)
        ∧ 0x80 ≤ byteAt s 2 ∧ byteAt s 2 ≤ 0xBF ∧ 0x80 ≤ byteAt s 3 ∧ byteAt s 3 ≤ 0xBF
    · rw [if_pos hc, IsSpace_iff] at h
      have hlo : byteAt s 0 = 0xF0 → secondLo (byteAt s 0) = 0x90 := by
        intro e; rw [e]; rfl
      have hhi := secondHi_le (byteAt s 0)
      simp only at h
      have hbig : 0x10000 ≤ byteAt s 0 % 8 * 262144 + byteAt s 1 % 64 * 4096
          + byteAt s 2 % 64 * 64 + byteAt s 3 % 64 := by
        by_cases e : byteAt s 0 = 0xF0
        · have := hlo e
          omega
        · omega
      generalize byteAt s 0 % 8 * 262144 + byteAt s 1 % 64 * 4096
          + byteAt s 2 % 64 * 64 + byteAt s 3 % 64 = r at h hbig
      omega
    · rw [if_neg hc, IsSpace_RuneError] at h
      exact absurd h (by decide)

theorem lastRuneStart_le (s : GoString) (lim fuel k : Nat) :
    ∀ i, lastRuneStart s lim fuel (some k) = some i → i ≤ k := by
  induction fuel generalizing k with
  | zero =>
    intro i h
    simp only [lastRuneStart, Option.some.injEq] at h
    omega
  | succ fuel ih =>
    intro i h
    simp only [lastRuneStart] at h
    split_ifs at h with h1 h2 h3
    · simp only [Option.some.injEq] at h; omega
    · simp only [Option.some.injEq] at h; omega
    · cases fuel <;> simp [lastRuneStart] at h
    · have := ih (k - 1) i h
      omega

theorem lastStart_lt (s : GoString) : lastStart s ≤ s.length - 1 := by
  unfold lastStart
  split_ifs with h0
  · cases hfuel : lastRuneStart s (s.length - 4) 4 none <;> simp
    rename_i i
    simp [lastRuneStart] at hfuel
  · cases hr : lastRuneStart s (s.length - 4) 4 (some (s.length - 1 - 1)) with
    | none => simp
    | some i =>
      have := lastRuneStart_le s _ _ _ i hr
      simp only
      omega

theorem decodeLast_nil : DecodeLastRuneInString [] = (RuneError, 0) := rfl

theorem decodeLast_ascii (s : GoString) (hs : s ≠ []) (h : byteAt s (s.length - 1) < 0x80) :
    DecodeLastRuneInString s = (byteAt s (s.length - 1), 1) := by
  have hl : ¬ s.length = 0 := by
    cases s with
    | nil => exact absurd rfl hs
    | cons c t => simp
  unfold DecodeLastRuneInString
  simp only [hl, if_false, RuneSelf, h, if_true]

theorem decodeLast_multi (s : GoString) (hs : s ≠ []) (h : 0x80 ≤ byteAt s (s.length - 1)) :
    DecodeLastRuneInString s =
      if lastStart s + (DecodeRuneInString (s.drop (lastStart s))).2 ≠ s.length then
        (RuneError, 1)
      else DecodeRuneInString (s.drop (lastStart s)) := by
  have hl : ¬ s.length = 0 := by
    cases s with
    | nil => exact absurd rfl hs
    | cons c t => simp
  have htake : ∀ st, (s.drop st).take (s.length - st) = s.drop st := by
    intro st
    apply List.take_of_length_le
    simp
  unfold DecodeLastRuneInString
  simp only [hl, if_false, RuneSelf, show ¬ byteAt s (s.length - 1) < 0x80 by omega]
  change (match DecodeRuneInString ((s.drop (lastStart s)).take (s.length - lastStart s)) with
    | (r, size) => if lastStart s + size ≠ s.length then (RuneError, 1) else (r, size)) = _
  rw [htake]

theorem byteAt_drop (s : GoString) (k i : Nat) : byteAt (s.drop k) i = byteAt s (k + i) := by
  unfold byteAt
  rw [List.getD_eq_getElem?_getD, List.getD_eq_getElem?_getD, List.getElem?_drop]

theorem byteAt_append_right (p a : GoString) (i : Nat) :
    byteAt (p ++ a) (p.length + i) = byteAt a i := by
  have := byteAt_drop (p ++ a) p.length i
  rw [List.drop_left] at this
  exact this.symm

/-- The shape of the result of `DecodeLastRuneInString`. -/
theorem decodeLast_struct (s : GoString) (hs : s ≠ []) :
    1 ≤ (DecodeLastRuneInString s).2 ∧ (DecodeLastRuneInString s).2 ≤ s.length ∧
    (((DecodeLastRuneInString s).2 = 1 ∧
        ((byteAt s (s.length - 1) < 0x80 ∧
            (DecodeLastRuneInString s).1 = byteAt s (s.length - 1)) ∨
          (0x80 ≤ byteAt s (s.length - 1) ∧ (DecodeLastRuneInString s).1 = RuneError))) ∨
      (2 ≤ (DecodeLastRuneInString s).2 ∧
        DecodeRuneInString (s.drop (s.length - (DecodeLastRuneInString s).2))
          = DecodeLastRuneInString s)) := by
  have hl : 1 ≤ s.length := by
    cases s with
    | nil => exact absurd rfl hs
    | cons c t => simp
  by_cases h : byteAt s (s.length - 1) < 0x80
  · rw [decodeLast_ascii s hs h]
    exact ⟨le_refl _, hl, Or.inl ⟨rfl, Or.inl ⟨h, rfl⟩⟩⟩
  · have h80 : 0x80 ≤ byteAt s (s.length - 1) := by omega
    rw [decodeLast_multi s hs h80]
    have hst := lastStart_lt s
    have hne : s.drop (lastStart s) ≠ [] := by
      intro he
      have := congrArg List.length he
      simp at this
      omega
    have hsz := decode_size _ hne
    by_cases hc : lastStart s + (DecodeRuneInString (s.drop (lastStart s))).2 ≠ s.length
    · rw [if_pos hc]
      exact ⟨le_refl _, hl, Or.inl ⟨rfl, Or.inr ⟨h80, rfl⟩⟩⟩
    · rw [if_neg hc]
      have hc2 : lastStart s + (DecodeRuneInString (s.drop (lastStart s))).2 = s.length := by
        omega
      refine ⟨hsz.1, by omega, ?_⟩
      by_cases h1 : (DecodeRuneInString (s.drop (lastStart s))).2 = 1
      · left
        refine ⟨h1, Or.inr ⟨h80, ?_⟩⟩
        rcases decode_size_one _ hne h1 with hr | ⟨hb, _⟩
        · exact hr
        · rw [byteAt_drop] at hb
          have : lastStart s + 0 = s.length - 1 := by omega
          rw [this] at hb
          omega
      · right
        refine ⟨by omega, ?_⟩
        have : s.length - (DecodeRuneInString (s.drop (lastStart s))).2 = lastStart s := by
          omega
        rw [this]

/-- A string whose last rune decodes to a space ends with a white-space
character, of the decoded width. -/
theorem decodeLast_space (s : GoString) (hs : s ≠ [])
    (h : IsSpace (DecodeLastRuneInString s).1 = true) :
    ∃ p w, w ∈ whiteSpace ∧ s = p ++ w ∧ (DecodeLastRuneInString s).2 = w.length := by
  obtain ⟨h1, h2, h3⟩ := decodeLast_struct s hs
  rcases h3 with ⟨hsz, ⟨hb, hr⟩ | ⟨_, hr⟩⟩ | ⟨hsz, hd⟩
  · rw [hr] at h
    rw [hsz]
    have hsplit : s = s.take (s.length - 1) ++ s.drop (s.length - 1) :=
      (List.take_append_drop _ _).symm
    have hlen : (s.drop (s.length - 1)).length = 1 := by simp; omega
    match hd : s.drop (s.length - 1), hlen with
    | [c], _ =>
      have hbc : byteAt s (s.length - 1) = c.val := by
        have := byteAt_drop s (s.length - 1) 0
        rw [hd] at this
        simpa using this.symm
      rw [hbc] at h hb
      rw [IsSpace_iff] at h
      refine ⟨s.take (s.length - 1), [c], mem_of_wsClass [c] ?_, ?_, rfl⟩
      · unfold wsClass
        simp only
        omega
      · rw [← hd]; exact hsplit
  · rw [hr, IsSpace_RuneError] at h
    exact absurd h (by decide)
  · have hne : s.drop (s.length - (DecodeLastRuneInString s).2) ≠ [] := by
      intro he
      have := congrArg List.length he
      simp at this
      omega
    rw [← hd] at h
    obtain ⟨w, rest, hw, hwr, hlen⟩ := decode_space _ hne h
    rw [hd] at hlen
    have hl2 : (s.drop (s.length - (DecodeLastRuneInString s).2)).length
        = (DecodeLastRuneInString s).2 := by
      simp; omega
    have hrest : rest = [] := by
      rw [hwr, List.length_append, hlen] at hl2
      exact List.length_eq_zero.mp (by omega)
    rw [hrest, List.append_nil] at hwr
    refine ⟨s.take (s.length - (DecodeLastRuneInString s).2), w, hw, ?_, hlen⟩
    rw [← hwr]
    exact (List.take_append_drop _ _).symm

theorem RuneStart_iff : ∀ c : Byte, RuneStart c.val = decide (¬ (0x80 ≤ c.val ∧ c.val ≤ 0xBF)) := by
  decide

theorem lastStart_two (p : GoString) (c0 c1 : Byte) (h0 : RuneStart c0.val = true) :
    lastStart (p ++ [c0, c1]) = p.length := by
  have hb : byteAt (p ++ [c0, c1]) (p.length + 0) = c0.val := byteAt_append_right p _ 0
  rw [Nat.add_zero] at hb
  unfold lastStart
  have hlen : (p ++ [c0, c1]).length = p.length + 2 := by simp
  rw [hlen]
  have e1 : ¬ (p.length + 2 - 1 = 0) := by omega
  have e2 : p.length + 2 - 1 - 1 = p.length := by omega
  rw [if_neg e1, e2]
  simp only [lastRuneStart, hb, h0, if_true]
  split_ifs <;> rfl

theorem lastStart_three (p : GoString) (c0 c1 c2 : Byte) (h0 : RuneStart c0.val = true)
    (h1 : RuneStart c1.val = false) : lastStart (p ++ [c0, c1, c2]) = p.length := by
  have hb0 : byteAt (p ++ [c0, c1, c2]) (p.length + 0) = c0.val := byteAt_append_right p _ 0
  have hb1 : byteAt (p ++ [c0, c1, c2]) (p.length + 1) = c1.val := byteAt_append_right p _ 1
  rw [Nat.add_zero] at hb0
  unfold lastStart
  have hlen : (p ++ [c0, c1, c2]).length = p.length + 3 := by simp
  rw [hlen]
  have e1 : ¬ (p.length + 3 - 1 = 0) := by omega
  have e2 : p.length + 3 - 1 - 1 = p.length + 1 := by omega
  have e3 : ¬ (p.length + 1 < p.length + 3 - 4) := by omega
  have e4 : ¬ (p.length + 1 = 0) := by omega
  have e5 : p.length + 1 - 1 = p.length := by omega
  rw [if_neg e1, e2]
  simp only [lastRuneStart, hb0, hb1, h0, h1, e3, e4, e5, if_false, if_true, Bool.false_eq_true]
  split_ifs <;> rfl

/-- A white-space character at the end of a string decodes, backwards, to a
space of the width of the character. -/
theorem decodeLast_of_suffix (p w : GoString) (hw : w ∈ whiteSpace) :
    IsSpace (DecodeLastRuneInString (p ++ w)).1 = true ∧
      (DecodeLastRuneInString (p ++ w)).2 = w.length := by
  have hc := wsClass_of_mem w hw
  have hdec := decode_of_lead w [] hw
  rw [List.append_nil] at hdec
  match w, hc with
  | [c], hc =>
    unfold wsClass at hc
    simp only at hc
    have hlen : (p ++ [c]).length - 1 = p.length + 0 := by simp
    have hb : byteAt (p ++ [c]) ((p ++ [c]).length - 1) = c.val := by
      rw [hlen]; exact byteAt_append_right p [c] 0
    rw [decodeLast_ascii _ (by simp) (by rw [hb]; omega), hb]
    refine ⟨?_, rfl⟩
    rw [IsSpace_iff]
    omega
  | [c0, c1], hc =>
    unfold wsClass at hc
    simp only at hc
    have hlen : (p ++ [c0, c1]).length - 1 = p.length + 1 := by simp
    have hb : byteAt (p ++ [c0, c1]) ((p ++ [c0, c1]).length - 1) = c1.val := by
      rw [hlen]; exact byteAt_append_right p [c0, c1] 1
    have hst : lastStart (p ++ [c0, c1]) = p.length :=
      lastStart_two p c0 c1 (by rw [RuneStart_iff]; simp; omega)
    rw [decodeLast_multi _ (by simp) (by rw [hb]; omega), hst, List.drop_left, hdec.2,
      if_neg (by simp)]
    exact hdec
  | [c0, c1, c2], hc =>
    unfold wsClass at hc
    simp only at hc
    have hlen : (p ++ [c0, c1, c2]).length - 1 = p.length + 2 := by simp
    have hb : byteAt (p ++ [c0, c1, c2]) ((p ++ [c0, c1, c2]).length - 1) = c2.val := by
      rw [hlen]; exact byteAt_append_right p [c0, c1, c2] 2
    have hst : lastStart (p ++ [c0, c1, c2]) = p.length :=
      lastStart_three p c0 c1 c2 (by rw [RuneStart_iff]; simp; omega)
        (by rw [RuneStart_iff]; simp; omega)
    rw [decodeLast_multi _ (by simp) (by rw [hb]; omega), hst, List.drop_left, hdec.2,
      if_neg (by simp)]
    exact hdec

/-! ## Lemmas on strings.TrimSpace -/

theorem whiteSpace_ne_nil : ∀ w ∈ whiteSpace, w ≠ [] := by decide

theorem whiteSpace_first : ∀ w ∈ whiteSpace, byteAt w 0 < 0x80 ∨ 0xBF < byteAt w 0 := by decide

theorem ascii_space_mem : ∀ c : Byte, asciiSpace c.val = true → [c] ∈ whiteSpace := by decide

theorem ascii_not_first :
    ∀ w ∈ whiteSpace, ∀ c : Byte, c.val < 0x80 → asciiSpace c.val = false → w.head? ≠ some c := by
  decide

theorem ascii_not_last :
    ∀ w ∈ whiteSpace, ∀ c : Byte, c.val < 0x80 → asciiSpace c.val = false →
      w.getLast? ≠ some c := by
  decide

theorem run_nil : IsWhiteSpaceRun [] := ⟨[], by simp, rfl⟩

theorem run_cons (w r : GoString) (hw : w ∈ whiteSpace) (hr : IsWhiteSpaceRun r) :
    IsWhiteSpaceRun (w ++ r) := by
  obtain ⟨chunks, hc, rfl⟩ := hr
  refine ⟨w :: chunks, ?_, by simp⟩
  intro c hcm
  rcases List.mem_cons.mp hcm with h | h
  · rw [h]; exact hw
  · exact hc c h

theorem run_append (a b : GoString) (ha : IsWhiteSpaceRun a) (hb : IsWhiteSpaceRun b) :
    IsWhiteSpaceRun (a ++ b) := by
  obtain ⟨ca, hca, rfl⟩ := ha
  obtain ⟨cb, hcb, rfl⟩ := hb
  refine ⟨ca ++ cb, ?_, by simp⟩
  intro c hcm
  rcases List.mem_append.mp hcm with h | h
  · exact hca c h
  · exact hcb c h

theorem run_single (w : GoString) (hw : w ∈ whiteSpace) : IsWhiteSpaceRun w := by
  have := run_cons w [] hw run_nil
  rwa [List.append_nil] at this

/-- A run that is not empty starts with a white-space character. -/
theorem run_head (r : GoString) (hr : IsWhiteSpaceRun r) (hne : r ≠ []) :
    ∃ w rest, w ∈ whiteSpace ∧ r = w ++ rest ∧ IsWhiteSpaceRun rest := by
  obtain ⟨chunks, hc, rfl⟩ := hr
  cases chunks with
  | nil => exact absurd rfl hne
  | cons w cs =>
    exact ⟨w, cs.flatten, hc w (List.mem_cons_self _ _), by simp,
      ⟨cs, fun c h => hc c (List.mem_cons_of_mem _ h), rfl⟩⟩

theorem noLeading_nil : NoLeadingSpace [] := by
  intro w hw hp
  exact whiteSpace_ne_nil w hw (List.prefix_nil.mp hp)

theorem noTrailing_nil : NoTrailingSpace [] := by
  intro w hw hp
  exact whiteSpace_ne_nil w hw (List.suffix_nil.mp hp)

theorem noLeading_of_decode (s : GoString)
    (h : IsSpace (DecodeRuneInString s).1 = false) : NoLeadingSpace s := by
  intro w hw ⟨rest, hr⟩
  have := (decode_of_lead w rest hw).1
  rw [hr, h] at this
  exact absurd this (by decide)

theorem noTrailing_of_decodeLast (s : GoString)
    (h : IsSpace (DecodeLastRuneInString s).1 = false) : NoTrailingSpace s := by
  intro w hw ⟨p, hp⟩
  have := (decodeLast_of_suffix p w hw).1
  rw [hp, h] at this
  exact absurd this (by decide)

/-- The loop of `TrimLeftFunc` removes a run of white space and stops before a
string without leading white space. -/
theorem trimLeftSpace_spec (fuel : Nat) (s : GoString) (hf : s.length ≤ fuel) :
    ∃ pre, s = pre ++ trimLeftSpace fuel s ∧ IsWhiteSpaceRun pre ∧
      NoLeadingSpace (trimLeftSpace fuel s) := by
  induction fuel generalizing s with
  | zero =>
    have hs : s = [] := List.length_eq_zero.mp (by omega)
    subst hs
    exact ⟨[], rfl, run_nil, noLeading_nil⟩
  | succ fuel ih =>
    unfold trimLeftSpace
    by_cases hs : s = []
    · rw [if_pos hs]
      exact ⟨[], by rw [hs]; rfl, run_nil, noLeading_nil⟩
    · rw [if_neg hs]
      by_cases hsp : IsSpace (DecodeRuneInString s).1 = false
      · simp only [hsp, if_true]
        exact ⟨[], rfl, run_nil, noLeading_of_decode s hsp⟩
      · have hsp2 : IsSpace (DecodeRuneInString s).1 = true := by
          cases h : IsSpace (DecodeRuneInString s).1
          · exact absurd h hsp
          · rfl
        simp only [hsp2, reduceCtorEq, if_false]
        obtain ⟨w, rest, hw, hwr, hlen⟩ := decode_space s hs hsp2
        have hdrop : s.drop (DecodeRuneInString s).2 = rest := by
          rw [hlen]
          conv_lhs => rw [hwr]
          exact List.drop_left _ _
        have hwl : 1 ≤ w.length := by
          have := whiteSpace_ne_nil w hw
          cases w with
          | nil => exact absurd rfl this
          | cons c t => simp
        have hrl : rest.length ≤ fuel := by
          have := congrArg List.length hwr
          rw [List.length_append] at this
          omega
        rw [hdrop]
        obtain ⟨pre, hpre, hrun, hno⟩ := ih rest hrl
        refine ⟨w ++ pre, ?_, run_cons w pre hw hrun, hno⟩
        rw [List.append_assoc, ← hpre]
        exact hwr

theorem byteAt_take (s : GoString) (j i : Nat) (h : i < j) :
    byteAt (s.take j) i = byteAt s i := by
  unfold byteAt
  rw [List.getD_eq_getElem?_getD, List.getD_eq_getElem?_getD, List.getElem?_take_of_lt h]

theorem drop_take_append_drop (s : GoString) (k j : Nat) (hk : k ≤ j) (hj : j ≤ s.length) :
    (s.take j).drop k ++ s.drop j = s.drop k := by
  have h1 : s.drop k = (s.take j ++ s.drop j).drop k := by rw [List.take_append_drop]
  rw [h1, List.drop_append_of_le_length (by rw [List.length_take]; omega)]

theorem take_ne_nil (s : GoString) (i : Nat) (h0 : 0 < i) (hi : i ≤ s.length) :
    s.take i ≠ [] := by
  intro he
  have := congrArg List.length he
  rw [List.length_take, List.length_nil] at this
  omega

theorem drop_ne_nil (s : GoString) (i : Nat) (hi : i < s.length) : s.drop i ≠ [] := by
  intro he
  have := congrArg List.length he
  rw [List.length_drop, List.length_nil] at this
  omega

/-- The loop of `lastIndexFunc`: what lies behind the index it reached is a
run of white space. -/
theorem lastIndexNotSpace_spec (s : GoString) (fuel i : Nat) (hf : i ≤ fuel)
    (hi : i ≤ s.length) (hrun : IsWhiteSpaceRun (s.drop i)) :
    (lastIndexNotSpace s fuel i = none ∧ IsWhiteSpaceRun s) ∨
    (∃ j, 0 < j ∧ j ≤ s.length ∧ IsWhiteSpaceRun (s.drop j) ∧
      IsSpace (DecodeLastRuneInString (s.take j)).1 = false ∧
      lastIndexNotSpace s fuel i = some (j - (DecodeLastRuneInString (s.take j)).2)) := by
  induction fuel generalizing i with
  | zero =>
    have h0 : i = 0 := by omega
    subst h0
    exact Or.inl ⟨rfl, by simpa using hrun⟩
  | succ fuel ih =>
    unfold lastIndexNotSpace
    by_cases h0 : i = 0
    · subst h0
      exact Or.inl ⟨by simp, by simpa using hrun⟩
    · rw [if_neg h0]
      have hne : s.take i ≠ [] := take_ne_nil s i (by omega) hi
      by_cases hsp : IsSpace (DecodeLastRuneInString (s.take i)).1 = false
      · right
        refine ⟨i, by omega, hi, hrun, hsp, ?_⟩
        simp only [hsp, if_true]
      · have hsp2 : IsSpace (DecodeLastRuneInString (s.take i)).1 = true := by
          cases h : IsSpace (DecodeLastRuneInString (s.take i)).1
          · exact absurd h hsp
          · rfl
        simp only [hsp2, reduceCtorEq, if_false]
        obtain ⟨p, w, hw, hpw, hlen⟩ := decodeLast_space (s.take i) hne hsp2
        have hwl : 1 ≤ w.length := by
          have := whiteSpace_ne_nil w hw
          cases w with
          | nil => exact absurd rfl this
          | cons c t => simp
        have hpl : p.length + w.length = i := by
          have := congrArg List.length hpw
          rw [List.length_take, List.length_append] at this
          omega
        have hdrop : s.drop (i - (DecodeLastRuneInString (s.take i)).2) = w ++ s.drop i := by
          rw [hlen, ← drop_take_append_drop s (i - w.length) i (by omega) hi, hpw]
          have : i - w.length = p.length := by omega
          rw [this, List.drop_left]
        exact ih (i - (DecodeLastRuneInString (s.take i)).2) (by omega) (by omega)
          (by rw [hdrop]; exact run_cons w _ hw hrun)

/-- The string `TrimRightFunc` returns: the argument without a run of white
space at its end, and without trailing white space. -/
theorem TrimRightFunc_spec (s : GoString) :
    ∃ post, s = TrimRightFunc s ++ post ∧ IsWhiteSpaceRun post ∧
      NoTrailingSpace (TrimRightFunc s) := by
  unfold TrimRightFunc
  rcases lastIndexNotSpace_spec s s.length s.length (le_refl _) (le_refl _)
    (by simpa using run_nil) with ⟨hnone, hrun⟩ | ⟨j, hj0, hj, hrun, hsp, hsome⟩
  · rw [hnone]
    exact ⟨s, by simp, hrun, by simpa using noTrailing_nil⟩
  · rw [hsome]
    simp only
    have hq : s.take j ≠ [] := take_ne_nil s j hj0 hj
    have hqlen : (s.take j).length = j := by rw [List.length_take]; omega
    obtain ⟨h1, h2, h3⟩ := decodeLast_struct (s.take j) hq
    rw [hqlen] at h2 h3
    have hres : (if byteAt s (j - (DecodeLastRuneInString (s.take j)).2) ≥ RuneSelf then
          s.take (j - (DecodeLastRuneInString (s.take j)).2
            + (DecodeRuneInString (s.drop (j - (DecodeLastRuneInString (s.take j)).2))).2)
        else s.take (j - (DecodeLastRuneInString (s.take j)).2 + 1)) = s.take j := by
      rcases h3 with ⟨hsz, ⟨hb, _⟩ | ⟨hb, _⟩⟩ | ⟨hsz, hd⟩
      · rw [hsz]
        rw [byteAt_take s j (j - 1) (by omega)] at hb
        rw [if_neg (by unfold RuneSelf; omega)]
        congr 1
        omega
      · rw [hsz]
        rw [byteAt_take s j (j - 1) (by omega)] at hb
        rw [if_pos (by unfold RuneSelf; omega)]
        have hne : s.drop (j - 1) ≠ [] := drop_ne_nil s (j - 1) (by omega)
        have hb0 : byteAt (s.drop (j - 1)) 0 = byteAt s (j - 1) := by
          rw [byteAt_drop]; rfl
        have hdec : DecodeRuneInString (s.drop (j - 1)) = (RuneError, 1) := by
          apply decode_no_continuation _ hne (by rw [hb0]; exact hb)
          by_cases hjl : j = s.length
          · left
            simp
            omega
          · right
            have hdne : s.drop j ≠ [] := drop_ne_nil s j (by omega)
            obtain ⟨w, rest, hw, hwr, _⟩ := run_head _ hrun hdne
            have hfirst := whiteSpace_first w hw
            have hwl : 0 < w.length := by
              have := whiteSpace_ne_nil w hw
              cases w with
              | nil => exact absurd rfl this
              | cons c t => simp
            have e1 : byteAt (s.drop (j - 1)) 1 = byteAt (s.drop j) 0 := by
              rw [byteAt_drop, byteAt_drop]
              congr 1
              omega
            rw [e1, hwr, byteAt_append_left w rest 0 hwl]
            exact hfirst
        rw [hdec]
        congr 1
        omega
      · have hk : j - (DecodeLastRuneInString (s.take j)).2 ≤ j := by omega
        have hane : (s.take j).drop (j - (DecodeLastRuneInString (s.take j)).2) ≠ [] :=
          drop_ne_nil _ _ (by rw [hqlen]; omega)
        have hsplit := drop_take_append_drop s _ j hk hj
        have h2d : 2 ≤ (DecodeRuneInString
            ((s.take j).drop (j - (DecodeLastRuneInString (s.take j)).2))).2 := by
          rw [hd]; exact hsz
        have happ := decode_append _ (s.drop j) h2d
        rw [hsplit, hd] at happ
        have hb80 : 0x80 ≤ byteAt s (j - (DecodeLastRuneInString (s.take j)).2) := by
          by_contra hlt
          have hlt2 : byteAt ((s.take j).drop (j - (DecodeLastRuneInString (s.take j)).2)) 0
              < 0x80 := by
            rw [byteAt_drop, byteAt_take s j _ (by omega)]
            simp only [Nat.add_zero]
            omega
          have := decode_ascii _ hane hlt2
          rw [this] at h2d
          simp at h2d
        rw [if_pos (by unfold RuneSelf; exact hb80), happ]
        congr 1
        omega
    rw [hres]
    exact ⟨s.drop j, (List.take_append_drop _ _).symm, hrun, noTrailing_of_decodeLast _ hsp⟩

theorem noLeading_of_initial (t u : GoString) (h : t <+: u) (hu : NoLeadingSpace u) :
    NoLeadingSpace t :=
  fun w hw hp => hu w hw (List.IsPrefix.trans hp h)

/-- The string `TrimFunc` returns is the argument trimmed of white space. -/
theorem TrimFunc_spec (s : GoString) : IsTrimmed (TrimFunc s) s := by
  unfold TrimFunc
  obtain ⟨pre, hpre, hrun1, hno1⟩ := trimLeftSpace_spec s.length s (le_refl _)
  obtain ⟨post, hpost, hrun2, hno2⟩ := TrimRightFunc_spec (trimLeftSpace s.length s)
  refine ⟨pre, post, ?_, hrun1, hrun2, ?_, hno2⟩
  · rw [List.append_assoc, ← hpost]
    exact hpre
  · exact noLeading_of_initial _ _ ⟨post, hpost.symm⟩ hno1

/-- The second loop of `TrimSpace` removes a run of white space from the end
and stops at a string without trailing white space. -/
theorem trimSpaceStop_spec (r : GoString) :
    ∃ post, r.reverse = trimSpaceStop r ++ post ∧ IsWhiteSpaceRun post ∧
      NoTrailingSpace (trimSpaceStop r) := by
  induction r with
  | nil => exact ⟨[], rfl, run_nil, noTrailing_nil⟩
  | cons c before ih =>
    unfold trimSpaceStop
    by_cases h80 : c.val ≥ RuneSelf
    · rw [if_pos h80]
      exact TrimRightFunc_spec _
    · rw [if_neg h80]
      by_cases hsp : asciiSpace c.val = true
      · rw [if_pos hsp]
        obtain ⟨post, hpost, hrun, hno⟩ := ih
        refine ⟨post ++ [c], ?_, run_append _ _ hrun (run_single _ (ascii_space_mem c hsp)), hno⟩
        rw [List.reverse_cons, hpost, List.append_assoc]
      · rw [if_neg hsp]
        refine ⟨[], by simp, run_nil, ?_⟩
        intro w hw hsuf
        have hcf : asciiSpace c.val = false := by
          cases h : asciiSpace c.val
          · rfl
          · exact absurd h hsp
        have hlast : w.getLast? = some c := by
          obtain ⟨p, hp⟩ := hsuf
          have hwne := whiteSpace_ne_nil w hw
          have h1 : (p ++ w).getLast? = ((c :: before).reverse).getLast? := by rw [hp]
          rw [List.getLast?_append_of_ne_nil _ hwne, List.reverse_cons,
            List.getLast?_append_of_ne_nil _ (by simp)] at h1
          simpa using h1
        exact ascii_not_last w hw c (by unfold RuneSelf at h80; omega) hcf hlast

/-- The string `TrimSpace` returns is the argument trimmed of leading and
trailing white space. -/
theorem TrimSpace_spec (s : GoString) : IsTrimmed (TrimSpace s) s := by
  induction s with
  | nil => exact ⟨[], [], rfl, run_nil, run_nil, noLeading_nil, noTrailing_nil⟩
  | cons c rest ih =>
    unfold TrimSpace
    by_cases h80 : c.val ≥ RuneSelf
    · rw [if_pos h80]
      exact TrimFunc_spec _
    · rw [if_neg h80]
      by_cases hsp : asciiSpace c.val = true
      · rw [if_pos hsp]
        obtain ⟨pre, post, hs, hrun1, hrun2, hno1, hno2⟩ := ih
        refine ⟨[c] ++ pre, post, ?_, run_cons [c] pre (ascii_space_mem c hsp) hrun1, hrun2,
          hno1, hno2⟩
        rw [List.append_assoc, List.append_assoc, ← List.append_assoc pre, ← hs]
        rfl
      · rw [if_neg hsp]
        obtain ⟨post, hpost, hrun, hno⟩ := trimSpaceStop_spec (c :: rest).reverse
        rw [List.reverse_reverse] at hpost
        refine ⟨[], post, by simpa using hpost, run_nil, hrun, ?_, hno⟩
        have hcf : asciiSpace c.val = false := by
          cases h : asciiSpace c.val
          · rfl
          · exact absurd h hsp
        apply noLeading_of_initial _ (c :: rest) ⟨post, hpost.symm⟩
        intro w hw hp
        have hhead : w.head? = some c := by
          obtain ⟨q, hq⟩ := hp
          have hwne := whiteSpace_ne_nil w hw
          cases w with
          | nil => exact absurd rfl hwne
          | cons d t =>
            simp only [List.cons_append, List.cons.injEq] at hq
            rw [hq.1]
            rfl
        exact ascii_not_first w hw c (by unfold RuneSelf at h80; omega) hcf hhead

/-! ## The trimmed string is unique -/

theorem run_iff (p : GoString) : IsWhiteSpaceRun p ↔ RunOf whiteSpace p := Iff.rfl

theorem runOf_head (A : List GoString) (r : GoString) (hr : RunOf A r) (hne : r ≠ []) :
    ∃ w rest, w ∈ A ∧ r = w ++ rest ∧ RunOf A rest := by
  obtain ⟨chunks, hc, rfl⟩ := hr
  cases chunks with
  | nil => exact absurd rfl hne
  | cons w cs =>
    exact ⟨w, cs.flatten, hc w (List.mem_cons_self _ _), by simp,
      ⟨cs, fun c h => hc c (List.mem_cons_of_mem _ h), rfl⟩⟩

/-- No word of a prefix-free list can be cut off a run in two ways: what
follows a run inside a run is a run. -/
theorem runOf_cancel (A : List GoString)
    (hfree : ∀ w ∈ A, ∀ w2 ∈ A, w <+: w2 → w = w2) (hne : ∀ w ∈ A, w ≠ [])
    (a d : GoString) (ha : RunOf A a) (had : RunOf A (a ++ d)) : RunOf A d := by
  obtain ⟨chunks, hc, rfl⟩ := ha
  induction chunks with
  | nil => simpa using had
  | cons w cs ih =>
    have hw : w ∈ A := hc w (List.mem_cons_self _ _)
    have hwne := hne w hw
    rw [List.flatten_cons, List.append_assoc] at had
    have hne2 : w ++ (cs.flatten ++ d) ≠ [] := by
      intro h
      exact hwne (List.append_eq_nil.mp h).1
    obtain ⟨w2, rest, hw2, heq, hrest⟩ := runOf_head A _ had hne2
    have hpre : w = w2 := by
      have hA : w <+: w ++ (cs.flatten ++ d) := ⟨_, rfl⟩
      have hB : w2 <+: w ++ (cs.flatten ++ d) := ⟨rest, heq.symm⟩
      rcases List.prefix_or_prefix_of_prefix hA hB with h | h
      · exact hfree w hw w2 hw2 h
      · exact (hfree w2 hw2 w hw h).symm
    rw [← hpre] at heq
    have hrest2 : cs.flatten ++ d = rest := List.append_cancel_left heq
    rw [← hrest2] at hrest
    exact ih (fun c h => hc c (List.mem_cons_of_mem _ h)) hrest

/-- Two ways to cut a run off the front of a string, each leaving a string
that starts with no word, agree. -/
theorem runOf_front_unique (A : List GoString)
    (hfree : ∀ w ∈ A, ∀ w2 ∈ A, w <+: w2 → w = w2) (hne : ∀ w ∈ A, w ≠ [])
    (a a2 x y : GoString) (ha : RunOf A a) (ha2 : RunOf A a2)
    (hx : ∀ w ∈ A, ¬ w <+: x) (hy : ∀ w ∈ A, ¬ w <+: y) (h : a ++ x = a2 ++ y) :
    a = a2 ∧ x = y := by
  have key : ∀ (a a2 x y : GoString), RunOf A a → RunOf A a2 → (∀ w ∈ A, ¬ w <+: x) →
      a ++ x = a2 ++ y → a <+: a2 → a = a2 ∧ x = y := by
    intro a a2 x y ha ha2 hx h hp
    obtain ⟨d, hd⟩ := hp
    have hrd : RunOf A d := runOf_cancel A hfree hne a d ha (by rw [hd]; exact ha2)
    rw [← hd, List.append_assoc] at h
    have hxd : x = d ++ y := List.append_cancel_left h
    by_cases hdn : d = []
    · rw [hdn, List.append_nil] at hd
      rw [hdn, List.nil_append] at hxd
      exact ⟨hd, hxd⟩
    · obtain ⟨w, rest, hw, hwr, _⟩ := runOf_head A d hrd hdn
      exact absurd ⟨rest ++ y, by rw [hxd, hwr, List.append_assoc]⟩ (hx w hw)
  have hA : a <+: a ++ x := ⟨_, rfl⟩
  have hB : a2 <+: a ++ x := ⟨y, h.symm⟩
  rcases List.prefix_or_prefix_of_prefix hA hB with hp | hp
  · exact key a a2 x y ha ha2 hx h hp
  · obtain ⟨h1, h2⟩ := key a2 a y x ha2 ha hy h.symm hp
    exact ⟨h1.symm, h2.symm⟩

theorem whiteSpace_free : ∀ w ∈ whiteSpace, ∀ w2 ∈ whiteSpace, w <+: w2 → w = w2 := by
  decide

theorem whiteSpace_reverse_free :
    ∀ w ∈ whiteSpace.map List.reverse, ∀ w2 ∈ whiteSpace.map List.reverse, w <+: w2 → w = w2 := by
  decide

theorem whiteSpace_reverse_ne_nil : ∀ w ∈ whiteSpace.map List.reverse, w ≠ [] := by decide

theorem whiteSpace_tail_continuation :
    ∀ w ∈ whiteSpace, ∀ b ∈ w.tail, 0x80 ≤ b.val ∧ b.val ≤ 0xBF := by
  decide

/-- The bytes of a white-space character after its first byte start no
white-space character. -/
theorem whiteSpace_tail_not_first :
    ∀ w ∈ whiteSpace, ∀ w2 ∈ whiteSpace, ∀ b ∈ w.tail, w2.head? ≠ some b := by
  intro w hw w2 hw2 b hb hhead
  have h1 := whiteSpace_tail_continuation w hw b hb
  have h2 := whiteSpace_first w2 hw2
  cases w2 with
  | nil => simp at hhead
  | cons d w3 =>
    simp only [List.head?_cons, Option.some.injEq] at hhead
    have h3 : byteAt (d :: w3) 0 = d.val := rfl
    rw [h3, hhead] at h2
    omega

theorem runOf_reverse (p : GoString) (hp : IsWhiteSpaceRun p) :
    RunOf (whiteSpace.map List.reverse) p.reverse := by
  obtain ⟨chunks, hc, rfl⟩ := hp
  refine ⟨(chunks.map List.reverse).reverse, ?_, List.reverse_flatten chunks⟩
  intro c hcm
  rw [List.mem_reverse, List.mem_map] at hcm
  obtain ⟨x, hx, rfl⟩ := hcm
  exact List.mem_map.mpr ⟨x, hc x hx, rfl⟩

/-- Two ways to cut a run of white space off the end of a string, each
leaving a string without trailing white space, agree. -/
theorem run_back_unique (x y b b2 : GoString) (hb : IsWhiteSpaceRun b)
    (hb2 : IsWhiteSpaceRun b2) (hx : NoTrailingSpace x) (hy : NoTrailingSpace y)
    (h : x ++ b = y ++ b2) : x = y := by
  have hrev : b.reverse ++ x.reverse = b2.reverse ++ y.reverse := by
    rw [← List.reverse_append, ← List.reverse_append, h]
  have hno : ∀ z : GoString, NoTrailingSpace z →
      ∀ w ∈ whiteSpace.map List.reverse, ¬ w <+: z.reverse := by
    intro z hz w hw hp
    obtain ⟨v, hv, rfl⟩ := List.mem_map.mp hw
    exact hz v hv (List.reverse_prefix.mp hp)
  have := (runOf_front_unique _ whiteSpace_reverse_free whiteSpace_reverse_ne_nil
    _ _ _ _ (runOf_reverse b hb) (runOf_reverse b2 hb2) (hno x hx) (hno y hy) hrev).2
  exact List.reverse_injective this

/-- A string that is not empty and starts with no white-space character still
starts with none when a run of white space follows it. -/
theorem noLeading_append_run (t post : GoString) (ht : t ≠ []) (hno : NoLeadingSpace t)
    (hpost : IsWhiteSpaceRun post) : NoLeadingSpace (t ++ post) := by
  intro w hw hp
  have hB : t <+: t ++ post := ⟨post, rfl⟩
  rcases List.prefix_or_prefix_of_prefix hp hB with h | h
  · exact hno w hw h
  · obtain ⟨r, hr⟩ := h
    obtain ⟨z, hz⟩ := hp
    by_cases hrn : r = []
    · rw [hrn, List.append_nil] at hr
      exact hno w hw ⟨[], by rw [List.append_nil, hr]⟩
    · rw [← hr, List.append_assoc] at hz
      have hpz : r ++ z = post := List.append_cancel_left hz
      have hpne : post ≠ [] := by
        intro h0
        rw [h0] at hpz
        exact hrn (List.append_eq_nil.mp hpz).1
      obtain ⟨w2, rest, hw2, hw2r, _⟩ := run_head post hpost hpne
      have hw2ne := whiteSpace_ne_nil w2 hw2
      cases r with
      | nil => exact absurd rfl hrn
      | cons b r2 =>
        cases t with
        | nil => exact absurd rfl ht
        | cons c t2 =>
          have hbt : b ∈ w.tail := by
            rw [← hr]
            simp
          have hhead : w2.head? = some b := by
            cases w2 with
            | nil => exact absurd rfl hw2ne
            | cons d w3 =>
              rw [hw2r] at hpz
              simp only [List.cons_append, List.cons.injEq] at hpz
              rw [hpz.1]
              rfl
          exact whiteSpace_tail_not_first w hw w2 hw2 b hbt hhead

/-- The string trimmed of leading and trailing white space is unique. -/
theorem IsTrimmed_unique (s t u : GoString) (ht : IsTrimmed t s) (hu : IsTrimmed u s) :
    t = u := by
  obtain ⟨pre, post, hs, hr1, hr2, hl, hr⟩ := ht
  obtain ⟨pre2, post2, hs2, hr12, hr22, hl2, hr2b⟩ := hu
  have empty_case : ∀ (pre post pre2 post2 u : GoString), IsWhiteSpaceRun pre →
      IsWhiteSpaceRun post → IsWhiteSpaceRun pre2 → IsWhiteSpaceRun post2 →
      NoLeadingSpace u → pre ++ [] ++ post = pre2 ++ u ++ post2 → u = [] := by
    intro pre post pre2 post2 u h1 h2 h3 h4 h5 heq
    by_contra hne
    have hrun : RunOf whiteSpace (pre2 ++ (u ++ post2)) := by
      rw [← List.append_assoc, ← heq, List.append_nil]
      exact run_append pre post h1 h2
    have hrun2 := runOf_cancel whiteSpace whiteSpace_free whiteSpace_ne_nil pre2 _ h3 hrun
    have hne2 : u ++ post2 ≠ [] := by
      intro h
      exact hne (List.append_eq_nil.mp h).1
    obtain ⟨w, rest, hw, hwr, _⟩ := runOf_head whiteSpace _ hrun2 hne2
    exact noLeading_append_run u post2 hne h5 h4 w hw ⟨rest, hwr.symm⟩
  by_cases htn : t = []
  · subst htn
    exact (empty_case pre post pre2 post2 u hr1 hr2 hr12 hr22 hl2 (by rw [← hs, ← hs2])).symm
  · by_cases hun : u = []
    · subst hun
      exact empty_case pre2 post2 pre post t hr12 hr22 hr1 hr2 hl (by rw [← hs, ← hs2])
    · have h1 := noLeading_append_run t post htn hl hr2
      have h2 := noLeading_append_run u post2 hun hl2 hr22
      have heq : pre ++ (t ++ post) = pre2 ++ (u ++ post2) := by
        rw [← List.append_assoc, ← List.append_assoc, ← hs, ← hs2]
      have h3 := (runOf_front_unique whiteSpace whiteSpace_free whiteSpace_ne_nil
        pre pre2 _ _ hr1 hr12 h1 h2 heq).2
      exact run_back_unique t u post post2 hr2 hr22 hr hr2b h3

/-! ## The resolution gate -/

/-- What `isResolutionValid` returns once the split has at least two tokens:
only the first two are read. -/
theorem isResolutionValid_of_split (intSize : Nat) (s t0 t1 : GoString) (rest : List GoString)
    (h : Split s 120 = t0 :: t1 :: rest) :
    isResolutionValid intSize s =
      match Atoi intSize t0, Atoi intSize t1 with
      | .ok width, .ok height => .ok (decide (width ≥ 1920 ∧ height ≥ 1080))
      | _, _ => .ok false := by
  unfold isResolutionValid
  simp only [h]
  rfl

/-- A text without `x` makes the second index expression panic. -/
theorem isResolutionValid_no_sep (intSize : Nat) (s : GoString) (h : (120 : Byte) ∉ s) :
    isResolutionValid intSize s = .error (.indexOutOfRange 1 1) := by
  unfold isResolutionValid
  simp only [Split_no_sep 120 s h]
  rfl

/-- C1: for integers `W` and `H` representable as a Go `int` (of 32 or 64
bits), `isResolutionValid` applied to the decimal rendering of `W`, the
character `x` and the decimal rendering of `H` returns normally, and returns
true if and only if `W ≥ 1920` and `H ≥ 1080`. -/
theorem isResolutionValid_rendered (intSize : Nat) (W H : Int)
    (hsize : intSize = 32 ∨ intSize = 64)
    (hW : -2 ^ (intSize - 1) ≤ W ∧ W < 2 ^ (intSize - 1))
    (hH : -2 ^ (intSize - 1) ≤ H ∧ H < 2 ^ (intSize - 1)) :
    isResolutionValid intSize (Itoa W ++ lit "x" ++ Itoa H)
        = .ok (decide (W ≥ 1920 ∧ H ≥ 1080)) ∧
      (isResolutionValid intSize (Itoa W ++ lit "x" ++ Itoa H) = .ok true
        ↔ W ≥ 1920 ∧ H ≥ 1080) := by
  have hx : lit "x" = [120] := by decide
  have hsplit : Split (Itoa W ++ lit "x" ++ Itoa H) 120 = [Itoa W, Itoa H] := by
    rw [hx, List.append_assoc, List.singleton_append, Split_append 120 _ _ (Itoa_no_x W),
      Split_no_sep 120 _ (Itoa_no_x H)]
  have hval : isResolutionValid intSize (Itoa W ++ lit "x" ++ Itoa H)
      = .ok (decide (W ≥ 1920 ∧ H ≥ 1080)) := by
    rw [isResolutionValid_of_split intSize _ _ _ _ hsplit,
      Atoi_Itoa intSize hsize W hW.1 hW.2, Atoi_Itoa intSize hsize H hH.1 hH.2]
  refine ⟨hval, ?_⟩
  rw [hval]
  simp

/-- Witness of C1: the example of the claim `1920x1080` on a 64-bit platform. -/
theorem isResolutionValid_rendered_witness :
    (64 = 32 ∨ 64 = 64) ∧
    (-2 ^ (64 - 1) ≤ (1920 : Int) ∧ (1920 : Int) < 2 ^ (64 - 1)) ∧
    (-2 ^ (64 - 1) ≤ (1080 : Int) ∧ (1080 : Int) < 2 ^ (64 - 1)) ∧
    (isResolutionValid 64 (Itoa 1920 ++ lit "x" ++ Itoa 1080)
        = .ok (decide ((1920 : Int) ≥ 1920 ∧ (1080 : Int) ≥ 1080)) ∧
      (isResolutionValid 64 (Itoa 1920 ++ lit "x" ++ Itoa 1080) = .ok true
        ↔ (1920 : Int) ≥ 1920 ∧ (1080 : Int) ≥ 1080)) :=
  ⟨Or.inr rfl, by norm_num, by norm_num,
    isResolutionValid_rendered 64 1920 1080 (Or.inr rfl) (by norm_num) (by norm_num)⟩

/-- C2: on the probe text `1920`, which has no `x`, the code does not return
false: the index expression `resolutionSplit[1]` panics, on both platform
sizes; the same happens on the empty string.  The text reaches the function
in a run of `main` whose prober prints `1920`, and that run ends in the
panic. -/
theorem isResolutionValid_1920_panics :
    isResolutionValid 64 (lit "1920") = .error (.indexOutOfRange 1 1) ∧
    isResolutionValid 32 (lit "1920") = .error (.indexOutOfRange 1 1) ∧
    isResolutionValid 64 (lit "") = .error (.indexOutOfRange 1 1) ∧
    isResolutionValid 64 (lit "1920") ≠ .ok false ∧
    (main 64 (exampleWorld 0 (lit "1920\n") none) variants (lit "in.mp4") (lit "out")).exit
      = .panicked (.indexOutOfRange 1 1) := by
  decide

/-- C3, as stated, fails: `isResolutionValid` does not return false on
`2560x1080`. -/
theorem not_rejected_2560x1080 :
    isResolutionValid 64 (lit "2560x1080") ≠ .ok false := by
  decide

/-- C3, amended: `isResolutionValid` accepts `2560x1080` (2560 ≥ 1920 and
1080 ≥ 1080): it returns true, on both platform sizes. -/
theorem accepts_2560x1080 :
    isResolutionValid 64 (lit "2560x1080") = .ok true ∧
    isResolutionValid 32 (lit "2560x1080") = .ok true := by
  decide

/-- C4, as stated, fails: `1920x1080x720` splits into three tokens and is
accepted. -/
theorem isResolutionValid_three_tokens_accepted :
    3 ≤ (Split (lit "1920x1080x720") 120).length ∧
    isResolutionValid 64 (lit "1920x1080x720") = .ok true := by
  decide

/-- C4, amended: `isResolutionValid` reads only the first two tokens of the
split on `x`.  For every string whose split yields two or more tokens it
returns normally, and returns true if and only if the first two tokens both
convert with `Atoi`, to a width of at least 1920 and a height of at least
1080, whatever tokens follow. -/
theorem isResolutionValid_first_two_tokens (intSize : Nat) (s t0 t1 : GoString)
    (rest : List GoString) (hsplit : Split s 120 = t0 :: t1 :: rest) :
    (∃ b, isResolutionValid intSize s = .ok b) ∧
    (isResolutionValid intSize s = .ok true ↔
      ∃ width height, Atoi intSize t0 = .ok width ∧ Atoi intSize t1 = .ok height ∧
        width ≥ 1920 ∧ height ≥ 1080) := by
  rw [isResolutionValid_of_split intSize s t0 t1 rest hsplit]
  cases h0 : Atoi intSize t0 with
  | error e => simp
  | ok w =>
    cases h1 : Atoi intSize t1 with
    | error e => simp
    | ok h => simp

/-- Witness of C4, amended: `1920x1080x720`, whose third token is ignored. -/
theorem isResolutionValid_first_two_tokens_witness :
    Split (lit "1920x1080x720") 120 = lit "1920" :: lit "1080" :: [lit "720"] ∧
    (∃ b, isResolutionValid 64 (lit "1920x1080x720") = .ok b) ∧
    (isResolutionValid 64 (lit "1920x1080x720") = .ok true ↔
      ∃ width height, Atoi 64 (lit "1920") = .ok width ∧ Atoi 64 (lit "1080") = .ok height ∧
        width ≥ 1920 ∧ height ≥ 1080) :=
  ⟨by decide, isResolutionValid_first_two_tokens 64 (lit "1920x1080x720") (lit "1920")
    (lit "1080") [lit "720"] (by decide)⟩

/-- C5: for every string that contains an `x`, with `t0` and `t1` the first
two tokens of its split on `x`: if `Atoi` fails on `t0` or on `t1`, then
`isResolutionValid` returns false, whatever the other token is. -/
theorem isResolutionValid_conversion_error (intSize : Nat) (s t0 t1 : GoString)
    (rest : List GoString) (hx : (120 : Byte) ∈ s) (hsplit : Split s 120 = t0 :: t1 :: rest)
    (hfail : (∃ e, Atoi intSize t0 = .error e) ∨ (∃ e, Atoi intSize t1 = .error e)) :
    isResolutionValid intSize s = .ok false := by
  have _ := hx
  rw [isResolutionValid_of_split intSize s t0 t1 rest hsplit]
  rcases hfail with ⟨e, he⟩ | ⟨e, he⟩
  · rw [he]
  · rw [he]
    cases Atoi intSize t0 <;> rfl

/-- Witness of C5: the example of the claim `abcxdef`, whose first token is not
numeric. -/
theorem isResolutionValid_conversion_error_witness :
    (120 : Byte) ∈ lit "abcxdef" ∧
    Split (lit "abcxdef") 120 = lit "abc" :: lit "def" :: [] ∧
    ((∃ e, Atoi 64 (lit "abc") = .error e) ∨ (∃ e, Atoi 64 (lit "def") = .error e)) ∧
    isResolutionValid 64 (lit "abcxdef") = .ok false :=
  ⟨by decide, by decide, Or.inl ⟨.ErrSyntax, by decide⟩,
    isResolutionValid_conversion_error 64 (lit "abcxdef") (lit "abc") (lit "def") []
      (by decide) (by decide) (Or.inl ⟨.ErrSyntax, by decide⟩)⟩

/-! ## The run of main -/

theorem encoderArgs_eq_specifiedArgs (inputFile outputDir variant scale : GoString) :
    encoderArgs inputFile outputDir variant scale
      = specifiedArgs inputFile outputDir variant scale := by
  unfold encoderArgs specifiedArgs
  simp only [Join_nested]

theorem encoderInvocations_append (a b : List Event) :
    encoderInvocations (a ++ b) = encoderInvocations a ++ encoderInvocations b := by
  unfold encoderInvocations
  exact List.filterMap_append _ _ _

theorem encoderInvocations_ffmpeg (vs : List (GoString × GoString)) (f : GoString × GoString → List GoString) :
    encoderInvocations (vs.map (fun v => Event.exec (lit "ffmpeg") (f v))) = vs.map f := by
  induction vs with
  | nil => rfl
  | cons v vs ih =>
    rw [List.map_cons, List.map_cons, ← ih]
    unfold encoderInvocations
    rw [List.filterMap_cons]
    simp

theorem encoderInvocations_createOutputDirectory (w : World) (outputDir : GoString) :
    encoderInvocations (createOutputDirectory w outputDir).1 = [] := by
  unfold createOutputDirectory
  cases w.stat outputDir
  · rfl
  · simp only []
    split_ifs <;> rfl
  · rfl

theorem getVideoResolution_trace (w : World) (inputFile : GoString) :
    (getVideoResolution w inputFile).1 = [Event.exec (lit "ffprobe") (probeArgs inputFile)] := by
  unfold getVideoResolution
  simp only []
  split_ifs <;> rfl

theorem encoderInvocations_getVideoResolution (w : World) (inputFile : GoString) :
    encoderInvocations (getVideoResolution w inputFile).1 = [] := by
  rw [getVideoResolution_trace]
  unfold encoderInvocations
  rw [List.filterMap_cons]
  have : ¬ (lit "ffprobe" = lit "ffmpeg") := by decide
  simp [this]

theorem createOutputDirectory_head (w : World) (outputDir : GoString) :
    ∃ rest, (createOutputDirectory w outputDir).1 = Event.stat outputDir :: rest := by
  unfold createOutputDirectory
  cases w.stat outputDir
  · exact ⟨_, rfl⟩
  · simp only []
    split_ifs <;> exact ⟨_, rfl⟩
  · exact ⟨_, rfl⟩

/-- The loop, as long as every invocation succeeds. -/
theorem renditionLoop_ok (w : World) (inputFile outputDir : GoString)
    (order : List (GoString × GoString)) (done : Nat) (tr : List Event)
    (hok : ∀ i v, order.get? i = some v →
      w.ffmpeg (done + i) (encoderArgs inputFile outputDir v.1 v.2) = .exit 0) :
    renditionLoop w inputFile outputDir order done tr
      = ⟨tr ++ order.map (fun v =>
          Event.exec (lit "ffmpeg") (encoderArgs inputFile outputDir v.1 v.2)), .returned⟩ := by
  induction order generalizing done tr with
  | nil => simp [renditionLoop]
  | cons v rest ih =>
    obtain ⟨variant, scale⟩ := v
    have h0 := hok 0 (variant, scale) rfl
    simp only [Nat.add_zero] at h0
    unfold renditionLoop
    simp only [h0, CmdStatus.isErr]
    rw [if_neg (by simp)]
    rw [ih (done + 1) _ (fun i u hu => by
      have := hok (i + 1) u (by simpa using hu)
      rw [← this]
      congr 1
      omega)]
    simp

/-- The loop, up to its first failing invocation. -/
theorem renditionLoop_fail (w : World) (inputFile outputDir : GoString)
    (order : List (GoString × GoString)) (done : Nat) (tr : List Event)
    (k : Nat) (v : GoString × GoString) (hk : order.get? k = some v)
    (hok : ∀ j u, j < k → order.get? j = some u →
      w.ffmpeg (done + j) (encoderArgs inputFile outputDir u.1 u.2) = .exit 0)
    (hfail : w.ffmpeg (done + k) (encoderArgs inputFile outputDir v.1 v.2) ≠ .exit 0) :
    renditionLoop w inputFile outputDir order done tr
      = ⟨tr ++ (order.take (k + 1)).map (fun u =>
          Event.exec (lit "ffmpeg") (encoderArgs inputFile outputDir u.1 u.2)),
        .fatal (.hlsVariant v.1)⟩ := by
  induction order generalizing done tr k with
  | nil => simp at hk
  | cons u rest ih =>
    obtain ⟨variant, scale⟩ := u
    cases k with
    | zero =>
      simp only [List.get?_cons_zero, Option.some.injEq] at hk
      subst hk
      simp only [Nat.add_zero] at hfail
      unfold renditionLoop
      simp only [CmdStatus.isErr]
      rw [if_pos (by simpa using hfail)]
      simp
    | succ k =>
      have h0 := hok 0 (variant, scale) (by omega) rfl
      simp only [Nat.add_zero] at h0
      unfold renditionLoop
      simp only [h0, CmdStatus.isErr]
      rw [if_neg (by simp)]
      rw [ih (done + 1) _ k (by simpa using hk)
        (fun j x hj hx => by
          have := hok (j + 1) x (by omega) (by simpa using hx)
          rw [← this]
          congr 1
          omega)
        (by
          intro h
          apply hfail
          rw [← h]
          congr 1
          omega)]
      simp

/-- The run of `main` once both flags are set, the output directory is
ensured, the probe succeeds and the gate passes: it is the rendition loop. -/
theorem main_of_gate_passed (intSize : Nat) (w : World) (order : List (GoString × GoString))
    (inputFile outputDir resolution : GoString)
    (hin : inputFile ≠ []) (hout : outputDir ≠ [])
    (hdir : (createOutputDirectory w outputDir).2 = none)
    (hprobe : (getVideoResolution w inputFile).2 = .ok resolution)
    (hvalid : isResolutionValid intSize resolution = .ok true) :
    main intSize w order inputFile outputDir
      = renditionLoop w inputFile outputDir order 0
          ((createOutputDirectory w outputDir).1 ++ (getVideoResolution w inputFile).1) := by
  unfold main
  rw [if_neg (by simp [hin, hout])]
  rcases hd : createOutputDirectory w outputDir with ⟨tr1, e1⟩
  rw [hd] at hdir
  simp only at hdir
  subst hdir
  rcases hp : getVideoResolution w inputFile with ⟨tr2, r2⟩
  rw [hp] at hprobe
  simp only at hprobe
  subst hprobe
  simp only [hvalid]

/-- The run of `main` when one of the steps before the loop stops it. -/
theorem main_of_gate_failed (intSize : Nat) (w : World) (order : List (GoString × GoString))
    (inputFile outputDir : GoString) (hin : inputFile ≠ []) (hout : outputDir ≠ [])
    (h : (createOutputDirectory w outputDir).2 ≠ none ∨
      (∃ e, (getVideoResolution w inputFile).2 = .error e) ∨
      (∃ resolution, (getVideoResolution w inputFile).2 = .ok resolution ∧
        isResolutionValid intSize resolution = .ok false)) :
    (∃ f, (main intSize w order inputFile outputDir).exit = .fatal f) ∧
    ((main intSize w order inputFile outputDir).trace = (createOutputDirectory w outputDir).1 ∨
      (main intSize w order inputFile outputDir).trace
        = (createOutputDirectory w outputDir).1 ++ (getVideoResolution w inputFile).1) := by
  unfold main
  rw [if_neg (by simp [hin, hout])]
  rcases hd : createOutputDirectory w outputDir with ⟨tr1, e1⟩
  cases e1 with
  | some e => exact ⟨⟨_, rfl⟩, Or.inl rfl⟩
  | none =>
    rw [hd] at h
    simp only [ne_eq, not_true_eq_false, false_or] at h
    rcases hp : getVideoResolution w inputFile with ⟨tr2, r2⟩
    rw [hp] at h
    cases r2 with
    | error e => exact ⟨⟨_, rfl⟩, Or.inr rfl⟩
    | ok res =>
      rcases h with ⟨e, he⟩ | ⟨resolution, h1, h2⟩
      · simp at he
      · simp only [Except.ok.injEq] at h1
        subst h1
        simp [h2]

theorem scale_of_encoderArgs (inputFile outputDir v1 s1 v2 s2 : GoString)
    (h : encoderArgs inputFile outputDir v1 s1 = encoderArgs inputFile outputDir v2 s2) :
    s1 = s2 := by
  unfold encoderArgs at h
  simp only [List.cons.injEq] at h
  exact List.append_cancel_left h.2.2.2.1

/-- C6: for every input path and output root, when both flags are set, the
output root is ensured, the probe succeeds, the gate passes and every encoder
invocation succeeds, `main` returns after exactly three encoder invocations,
one for each entry of the map in the order `range` visits them, each with
exactly the specified argument list `-i <input> -vf scale=<scale> -c:a aac
-b:a 192k -c:v h264 -b:v 2M -hls_time 10 -hls_list_size 6 -hls_flags
delete_segments <path>`, `<path>` being the join of the output root, the
name and `variant_<name>.m3u8`; up to order they are the invocations for
(1080p, 1920x1080), (720p, 1280x720) and (480p, 854x480). -/
theorem main_three_invocations (intSize : Nat) (w : World)
    (order : List (GoString × GoString)) (inputFile outputDir resolution : GoString)
    (hin : inputFile ≠ []) (hout : outputDir ≠ [])
    (horder : order.Perm variants)
    (hdir : (createOutputDirectory w outputDir).2 = none)
    (hprobe : (getVideoResolution w inputFile).2 = .ok resolution)
    (hvalid : isResolutionValid intSize resolution = .ok true)
    (hok : ∀ i v, order.get? i = some v →
      w.ffmpeg i (encoderArgs inputFile outputDir v.1 v.2) = .exit 0) :
    (main intSize w order inputFile outputDir).exit = .returned ∧
    encoderInvocations (main intSize w order inputFile outputDir).trace
      = order.map (fun v => specifiedArgs inputFile outputDir v.1 v.2) ∧
    (encoderInvocations (main intSize w order inputFile outputDir).trace).length = 3 ∧
    (encoderInvocations (main intSize w order inputFile outputDir).trace).Perm
      [specifiedArgs inputFile outputDir (lit "1080p") (lit "1920x1080"),
       specifiedArgs inputFile outputDir (lit "720p") (lit "1280x720"),
       specifiedArgs inputFile outputDir (lit "480p") (lit "854x480")] := by
  have hrun := main_of_gate_passed intSize w order inputFile outputDir resolution
    hin hout hdir hprobe hvalid
  rw [renditionLoop_ok w inputFile outputDir order 0 _
    (fun i v hv => by rw [Nat.zero_add]; exact hok i v hv)] at hrun
  have hinv : encoderInvocations (main intSize w order inputFile outputDir).trace
      = order.map (fun v => specifiedArgs inputFile outputDir v.1 v.2) := by
    rw [hrun]
    simp only [encoderInvocations_append, encoderInvocations_createOutputDirectory,
      encoderInvocations_getVideoResolution, List.nil_append]
    rw [encoderInvocations_ffmpeg order (fun v => encoderArgs inputFile outputDir v.1 v.2)]
    exact List.map_congr_left (fun v _ => encoderArgs_eq_specifiedArgs _ _ _ _)
  refine ⟨by rw [hrun], hinv, ?_, ?_⟩
  · rw [hinv, List.length_map, horder.length_eq]
    rfl
  · rw [hinv]
    exact horder.map _

/-- Witness of C6: a 1080p source, every encoder invocation succeeding, the
entries visited in the order of the source text. -/
theorem main_three_invocations_witness :
    lit "in.mp4" ≠ [] ∧ lit "out" ≠ [] ∧ variants.Perm variants ∧
    (createOutputDirectory (exampleWorld 0 (lit "1920x1080\n") none) (lit "out")).2 = none ∧
    (getVideoResolution (exampleWorld 0 (lit "1920x1080\n") none) (lit "in.mp4")).2
      = .ok (lit "1920x1080") ∧
    isResolutionValid 64 (lit "1920x1080") = .ok true ∧
    (∀ i v, variants.get? i = some v →
      (exampleWorld 0 (lit "1920x1080\n") none).ffmpeg i
        (encoderArgs (lit "in.mp4") (lit "out") v.1 v.2) = .exit 0) ∧
    ((main 64 (exampleWorld 0 (lit "1920x1080\n") none) variants (lit "in.mp4")
        (lit "out")).exit = .returned ∧
      encoderInvocations (main 64 (exampleWorld 0 (lit "1920x1080\n") none) variants
          (lit "in.mp4") (lit "out")).trace
        = variants.map (fun v => specifiedArgs (lit "in.mp4") (lit "out") v.1 v.2) ∧
      (encoderInvocations (main 64 (exampleWorld 0 (lit "1920x1080\n") none) variants
          (lit "in.mp4") (lit "out")).trace).length = 3 ∧
      (encoderInvocations (main 64 (exampleWorld 0 (lit "1920x1080\n") none) variants
          (lit "in.mp4") (lit "out")).trace).Perm
        [specifiedArgs (lit "in.mp4") (lit "out") (lit "1080p") (lit "1920x1080"),
         specifiedArgs (lit "in.mp4") (lit "out") (lit "720p") (lit "1280x720"),
         specifiedArgs (lit "in.mp4") (lit "out") (lit "480p") (lit "854x480")]) :=
  ⟨by decide, by decide, List.Perm.refl _, by decide, by decide, by decide,
    fun _ _ _ => rfl,
    main_three_invocations 64 (exampleWorld 0 (lit "1920x1080\n") none) variants
      (lit "in.mp4") (lit "out") (lit "1920x1080") (by decide) (by decide)
      (List.Perm.refl _) (by decide) (by decide) (by decide) (fun _ _ _ => rfl)⟩

/-- C7: fail-fast rendition loop.  For every order in which the three
renditions are visited and every outcome of the encoder invocations, once the
gate has passed: if the invocation for the rendition at position `k` is the
first to fail, the program terminates fatally there, the encoder invocations
issued are exactly those of the renditions at positions 0 to `k`, in order,
and no invocation is issued for a rendition at a later position. -/
theorem main_fail_fast (intSize : Nat) (w : World)
    (order : List (GoString × GoString)) (inputFile outputDir resolution : GoString)
    (k : Nat) (v : GoString × GoString)
    (hin : inputFile ≠ []) (hout : outputDir ≠ [])
    (horder : order.Perm variants)
    (hdir : (createOutputDirectory w outputDir).2 = none)
    (hprobe : (getVideoResolution w inputFile).2 = .ok resolution)
    (hvalid : isResolutionValid intSize resolution = .ok true)
    (hk : order.get? k = some v)
    (hok : ∀ j u, j < k → order.get? j = some u →
      w.ffmpeg j (encoderArgs inputFile outputDir u.1 u.2) = .exit 0)
    (hfail : w.ffmpeg k (encoderArgs inputFile outputDir v.1 v.2) ≠ .exit 0) :
    (main intSize w order inputFile outputDir).exit = .fatal (.hlsVariant v.1) ∧
    encoderInvocations (main intSize w order inputFile outputDir).trace
      = (order.take (k + 1)).map (fun u => encoderArgs inputFile outputDir u.1 u.2) ∧
    (∀ j u, k < j → order.get? j = some u →
      encoderArgs inputFile outputDir u.1 u.2
        ∉ encoderInvocations (main intSize w order inputFile outputDir).trace) := by
  have hrun := main_of_gate_passed intSize w order inputFile outputDir resolution
    hin hout hdir hprobe hvalid
  rw [renditionLoop_fail w inputFile outputDir order 0 _ k v hk
    (fun j u hj hu => by rw [Nat.zero_add]; exact hok j u hj hu)
    (by rw [Nat.zero_add]; exact hfail)] at hrun
  have hinv : encoderInvocations (main intSize w order inputFile outputDir).trace
      = (order.take (k + 1)).map (fun u => encoderArgs inputFile outputDir u.1 u.2) := by
    rw [hrun]
    simp only [encoderInvocations_append, encoderInvocations_createOutputDirectory,
      encoderInvocations_getVideoResolution, List.nil_append]
    exact encoderInvocations_ffmpeg _ (fun u => encoderArgs inputFile outputDir u.1 u.2)
  refine ⟨by rw [hrun], hinv, ?_⟩
  intro j u hj hu hmem
  rw [hinv, List.mem_map] at hmem
  obtain ⟨u2, hu2, heq⟩ := hmem
  have hscale : u2.2 = u.2 := scale_of_encoderArgs _ _ _ _ _ _ heq
  have hnodup : (order.map Prod.snd).Nodup := by
    have h1 : (variants.map Prod.snd).Nodup := by decide
    exact ((horder.map Prod.snd).nodup_iff).mpr h1
  rw [← List.take_append_drop (k + 1) order, List.map_append, List.nodup_append] at hnodup
  have hudrop : u ∈ order.drop (k + 1) := by
    rw [List.mem_iff_get?]
    refine ⟨j - (k + 1), ?_⟩
    rw [List.get?_eq_getElem?, List.getElem?_drop, ← List.get?_eq_getElem?, ← hu]
    congr 1
    omega
  exact hnodup.2.2 (List.mem_map.mpr ⟨u2, hu2, rfl⟩)
    (by rw [hscale]; exact List.mem_map.mpr ⟨u, hudrop, rfl⟩)

/-- Witness of C7: the second invocation, for `720p`, fails. -/
theorem main_fail_fast_witness :
    lit "in.mp4" ≠ [] ∧ lit "out" ≠ [] ∧ variants.Perm variants ∧
    (createOutputDirectory (exampleWorld 0 (lit "1920x1080\n") (some 1)) (lit "out")).2 = none ∧
    (getVideoResolution (exampleWorld 0 (lit "1920x1080\n") (some 1)) (lit "in.mp4")).2
      = .ok (lit "1920x1080") ∧
    isResolutionValid 64 (lit "1920x1080") = .ok true ∧
    variants.get? 1 = some (lit "720p", lit "1280x720") ∧
    (∀ j u, j < 1 → variants.get? j = some u →
      (exampleWorld 0 (lit "1920x1080\n") (some 1)).ffmpeg j
        (encoderArgs (lit "in.mp4") (lit "out") u.1 u.2) = .exit 0) ∧
    (exampleWorld 0 (lit "1920x1080\n") (some 1)).ffmpeg 1
      (encoderArgs (lit "in.mp4") (lit "out") (lit "720p") (lit "1280x720")) ≠ .exit 0 ∧
    ((main 64 (exampleWorld 0 (lit "1920x1080\n") (some 1)) variants (lit "in.mp4")
        (lit "out")).exit = .fatal (.hlsVariant (lit "720p")) ∧
      encoderInvocations (main 64 (exampleWorld 0 (lit "1920x1080\n") (some 1)) variants
          (lit "in.mp4") (lit "out")).trace
        = (variants.take (1 + 1)).map (fun u => encoderArgs (lit "in.mp4") (lit "out") u.1 u.2) ∧
      (∀ j u, 1 < j → variants.get? j = some u →
        encoderArgs (lit "in.mp4") (lit "out") u.1 u.2
          ∉ encoderInvocations (main 64 (exampleWorld 0 (lit "1920x1080\n") (some 1)) variants
              (lit "in.mp4") (lit "out")).trace)) :=
  ⟨by decide, by decide, List.Perm.refl _, by decide, by decide, by decide, by decide,
    fun j _ hj _ => by
      obtain rfl : j = 0 := by omega
      rfl,
    by decide,
    main_fail_fast 64 (exampleWorld 0 (lit "1920x1080\n") (some 1)) variants
      (lit "in.mp4") (lit "out") (lit "1920x1080") 1 (lit "720p", lit "1280x720")
      (by decide) (by decide) (List.Perm.refl _) (by decide) (by decide) (by decide)
      (by decide)
      (fun j _ hj _ => by
        obtain rfl : j = 0 := by omega
        rfl)
      (by decide)⟩

/-- C8, as stated, fails: in a run with both flags set whose probe fails,
`createOutputDirectory` has been called, and has created the output root,
before the program terminates. -/
theorem main_probe_failure_after_mkdir :
    lit "in.mp4" ≠ [] ∧ lit "out" ≠ [] ∧
    (getVideoResolution (exampleWorld 1 (lit "") none) (lit "in.mp4")).2 = .error .running ∧
    Event.stat (lit "out")
      ∈ (main 64 (exampleWorld 1 (lit "") none) variants (lit "in.mp4") (lit "out")).trace ∧
    Event.mkdirAll (lit "out") 0o755
      ∈ (main 64 (exampleWorld 1 (lit "") none) variants (lit "in.mp4") (lit "out")).trace := by
  decide

/-- C8, amended: `main` runs its stages in the order Output Layout Manager,
then Resolution Gate, then Rendition Planner.  For every run with both flags
set in which the probe fails or the probed resolution is rejected,
`createOutputDirectory` is called first: the run begins with its `os.Stat`
of the output root, its actions come before the probe, and the program
terminates fatally. -/
theorem main_layout_before_gate (intSize : Nat) (w : World)
    (order : List (GoString × GoString)) (inputFile outputDir : GoString)
    (hin : inputFile ≠ []) (hout : outputDir ≠ [])
    (h : (∃ e, (getVideoResolution w inputFile).2 = .error e) ∨
      (∃ resolution, (getVideoResolution w inputFile).2 = .ok resolution ∧
        isResolutionValid intSize resolution = .ok false)) :
    (∃ rest, (main intSize w order inputFile outputDir).trace = Event.stat outputDir :: rest) ∧
    ((main intSize w order inputFile outputDir).trace = (createOutputDirectory w outputDir).1 ∨
      (main intSize w order inputFile outputDir).trace
        = (createOutputDirectory w outputDir).1
          ++ [Event.exec (lit "ffprobe") (probeArgs inputFile)]) ∧
    (∃ f, (main intSize w order inputFile outputDir).exit = .fatal f) := by
  obtain ⟨hf, ht⟩ := main_of_gate_failed intSize w order inputFile outputDir hin hout (Or.inr h)
  rw [getVideoResolution_trace] at ht
  obtain ⟨rest, hrest⟩ := createOutputDirectory_head w outputDir
  refine ⟨?_, ht, hf⟩
  rcases ht with ht | ht
  · exact ⟨rest, by rw [ht, hrest]⟩
  · exact ⟨rest ++ [Event.exec (lit "ffprobe") (probeArgs inputFile)], by rw [ht, hrest]; rfl⟩

/-- Witness of C8, amended: a run whose probe exits with status 1. -/
theorem main_layout_before_gate_witness :
    lit "in.mp4" ≠ [] ∧ lit "out" ≠ [] ∧
    ((∃ e, (getVideoResolution (exampleWorld 1 (lit "") none) (lit "in.mp4")).2 = .error e) ∨
      (∃ resolution,
        (getVideoResolution (exampleWorld 1 (lit "") none) (lit "in.mp4")).2 = .ok resolution ∧
        isResolutionValid 64 resolution = .ok false)) ∧
    ((∃ rest, (main 64 (exampleWorld 1 (lit "") none) variants (lit "in.mp4") (lit "out")).trace
        = Event.stat (lit "out") :: rest) ∧
      ((main 64 (exampleWorld 1 (lit "") none) variants (lit "in.mp4") (lit "out")).trace
          = (createOutputDirectory (exampleWorld 1 (lit "") none) (lit "out")).1 ∨
        (main 64 (exampleWorld 1 (lit "") none) variants (lit "in.mp4") (lit "out")).trace
          = (createOutputDirectory (exampleWorld 1 (lit "") none) (lit "out")).1
            ++ [Event.exec (lit "ffprobe") (probeArgs (lit "in.mp4"))]) ∧
      (∃ f, (main 64 (exampleWorld 1 (lit "") none) variants (lit "in.mp4") (lit "out")).exit
        = .fatal f)) :=
  ⟨by decide, by decide, Or.inl ⟨.running, by decide⟩,
    main_layout_before_gate 64 (exampleWorld 1 (lit "") none) variants (lit "in.mp4")
      (lit "out") (by decide) (by decide) (Or.inl ⟨.running, by decide⟩)⟩

/-- C9: for every run with both flags set in which `createOutputDirectory`
fails, `getVideoResolution` fails, or `isResolutionValid` returns false on
the probed resolution, `main` terminates fatally without issuing any encoder
invocation. -/
theorem main_no_encoder_after_failure (intSize : Nat) (w : World)
    (order : List (GoString × GoString)) (inputFile outputDir : GoString)
    (hin : inputFile ≠ []) (hout : outputDir ≠ [])
    (h : (createOutputDirectory w outputDir).2 ≠ none ∨
      (∃ e, (getVideoResolution w inputFile).2 = .error e) ∨
      (∃ resolution, (getVideoResolution w inputFile).2 = .ok resolution ∧
        isResolutionValid intSize resolution = .ok false)) :
    (∃ f, (main intSize w order inputFile outputDir).exit = .fatal f) ∧
    encoderInvocations (main intSize w order inputFile outputDir).trace = [] := by
  obtain ⟨hf, ht⟩ := main_of_gate_failed intSize w order inputFile outputDir hin hout h
  refine ⟨hf, ?_⟩
  rcases ht with ht | ht
  · rw [ht, encoderInvocations_createOutputDirectory]
  · rw [ht, encoderInvocations_append, encoderInvocations_createOutputDirectory,
      encoderInvocations_getVideoResolution]
    rfl

/-- Witness of C9: the probed resolution `1280x720` is rejected. -/
theorem main_no_encoder_after_failure_witness :
    lit "in.mp4" ≠ [] ∧ lit "out" ≠ [] ∧
    ((createOutputDirectory (exampleWorld 0 (lit "1280x720\n") none) (lit "out")).2 ≠ none ∨
      (∃ e, (getVideoResolution (exampleWorld 0 (lit "1280x720\n") none) (lit "in.mp4")).2
        = .error e) ∨
      (∃ resolution,
        (getVideoResolution (exampleWorld 0 (lit "1280x720\n") none) (lit "in.mp4")).2
          = .ok resolution ∧
        isResolutionValid 64 resolution = .ok false)) ∧
    ((∃ f, (main 64 (exampleWorld 0 (lit "1280x720\n") none) variants (lit "in.mp4")
        (lit "out")).exit = .fatal f) ∧
      encoderInvocations (main 64 (exampleWorld 0 (lit "1280x720\n") none) variants
        (lit "in.mp4") (lit "out")).trace = []) :=
  ⟨by decide, by decide, Or.inr (Or.inr ⟨lit "1280x720", by decide, by decide⟩),
    main_no_encoder_after_failure 64 (exampleWorld 0 (lit "1280x720\n") none) variants
      (lit "in.mp4") (lit "out") (by decide) (by decide)
      (Or.inr (Or.inr ⟨lit "1280x720", by decide, by decide⟩))⟩

/-- C10: `getVideoResolution`, as a function of how the prober ended and of
its combined output.  The combined output has exactly one form trimmed of
leading and trailing white space (`trimmed`: the output between two runs of
Unicode white-space characters, with no white-space character at its start or
end).  The function returns an error if and only if the prober did not exit
with status zero or that trimmed form is empty; for a prober that exits with
a code this is: the code is not zero or the trimmed form is empty.  In every
other case it returns exactly the trimmed form, with no error. -/
theorem getVideoResolution_result (w : World) (inputFile : GoString) (status : CmdStatus)
    (output : GoString) (h : w.ffprobe (probeArgs inputFile) = (status, output)) :
    ∃ trimmed, IsTrimmed trimmed output ∧ (∀ u, IsTrimmed u output → u = trimmed) ∧
      ((∃ e, (getVideoResolution w inputFile).2 = .error e)
        ↔ (status ≠ .exit 0 ∨ trimmed = [])) ∧
      (∀ code, status = .exit code →
        ((∃ e, (getVideoResolution w inputFile).2 = .error e)
          ↔ (code ≠ 0 ∨ trimmed = []))) ∧
      (¬ (status ≠ .exit 0 ∨ trimmed = []) →
        (getVideoResolution w inputFile).2 = .ok trimmed) := by
  have hmain : (getVideoResolution w inputFile).2 =
      if status ≠ .exit 0 then .error .running
      else if TrimSpace output = [] then .error .noResolution
      else .ok (TrimSpace output) := by
    unfold getVideoResolution
    rw [h]
    simp only [CmdStatus.isErr, decide_eq_true_eq]
    split_ifs <;> rfl
  have hiff : (∃ e, (getVideoResolution w inputFile).2 = .error e)
      ↔ (status ≠ .exit 0 ∨ TrimSpace output = []) := by
    rw [hmain]
    by_cases h1 : status ≠ .exit 0
    · simp [h1]
    · by_cases h2 : TrimSpace output = []
      · simp [h1, h2]
      · simp [h1, h2]
  refine ⟨TrimSpace output, TrimSpace_spec output,
    fun u hu => IsTrimmed_unique output u (TrimSpace output) hu (TrimSpace_spec output),
    hiff, ?_, ?_⟩
  · intro code hcode
    rw [hiff, hcode]
    simp
  · intro hn
    rw [hmain]
    rw [not_or] at hn
    rw [if_neg hn.1, if_neg hn.2]

/-- Witness of C10: the prober exits with status 0 and prints `1920x1080`
and a newline; the trimmed form of that output is `1920x1080`, and this is
what `getVideoResolution` returns. -/
theorem getVideoResolution_result_witness :
    (exampleWorld 0 (lit "1920x1080\n") none).ffprobe (probeArgs (lit "in.mp4"))
      = (.exit 0, lit "1920x1080\n") ∧
    (∃ trimmed, IsTrimmed trimmed (lit "1920x1080\n") ∧
      (∀ u, IsTrimmed u (lit "1920x1080\n") → u = trimmed) ∧
      ((∃ e, (getVideoResolution (exampleWorld 0 (lit "1920x1080\n") none) (lit "in.mp4")).2
          = .error e)
        ↔ (CmdStatus.exit 0 ≠ .exit 0 ∨ trimmed = [])) ∧
      (∀ code, CmdStatus.exit 0 = .exit code →
        ((∃ e, (getVideoResolution (exampleWorld 0 (lit "1920x1080\n") none) (lit "in.mp4")).2
            = .error e)
          ↔ (code ≠ 0 ∨ trimmed = []))) ∧
      (¬ (CmdStatus.exit 0 ≠ .exit 0 ∨ trimmed = []) →
        (getVideoResolution (exampleWorld 0 (lit "1920x1080\n") none) (lit "in.mp4")).2
          = .ok trimmed)) ∧
    IsTrimmed (lit "1920x1080") (lit "1920x1080\n") ∧
    (getVideoResolution (exampleWorld 0 (lit "1920x1080\n") none) (lit "in.mp4")).2
      = .ok (lit "1920x1080") := by
  have hform : IsTrimmed (lit "1920x1080") (lit "1920x1080\n") :=
    ⟨[], lit "\n", by decide, run_nil, run_single (lit "\n") (by decide),
      by unfold NoLeadingSpace; decide, by unfold NoTrailingSpace; decide⟩
  refine ⟨rfl, getVideoResolution_result (exampleWorld 0 (lit "1920x1080\n") none)
    (lit "in.mp4") (.exit 0) (lit "1920x1080\n") rfl, hform, ?_⟩
  obtain ⟨trimmed, _, huniq, _, _, hok⟩ :=
    getVideoResolution_result (exampleWorld 0 (lit "1920x1080\n") none)
      (lit "in.mp4") (.exit 0) (lit "1920x1080\n") rfl
  have htr : lit "1920x1080" = trimmed := huniq _ hform
  rw [← htr] at hok
  exact hok (by decide)

end HlsConvertor
